import Mathlib

/-!
Verification development for the multi-party encryption module
(src/js/etc/multiParty.js).  The module is embedded shallowly: byte
strings are lists of `Fin 256`, the CryptoJS WordArray values are
modelled by their equivalent byte strings (word granularity is kept
where it is observable, see `padToWords`), and the external primitive
libraries (NaCl scalar multiplication, SHA-512, HMAC-SHA512, AES-CTR,
Base64, UTF-8) are a record of functions `Prims`, since the repository
treats them as trusted external collaborators.  The process-wide
`usedIVs` registry is threaded explicitly as a `List String` of Base64
IV encodings, and the random source is an explicit stream of candidate
values.  The two sort orders of the source are kept distinct: the
recipient sort of `encrypt` uses the host collation `localeCompare`,
modelled by the abstract comparator field `Prims.localeLe`, while the
key sort of `decrypt` (`Object.keys(encrypted).sort()`) is the default
code-unit comparison, modelled concretely by `sLe`; the two orders
disagree on mixed-case labels.
-/

set_option maxHeartbeats 1000000

set_option maxRecDepth 40000

abbrev Byte := Fin 256

abbrev Bytes := List Byte

/-- Record of the external primitive libraries consumed by the module:
NaCl scalar multiplication, the 512-bit hash, HMAC keyed with it, the
counter-mode block cipher (data, key, 16-byte counter block), Base64
and UTF-8 codecs, and the host string collation.  UTF-8 decoding
signals failure with `none`, as the CryptoJS decoder throws on
malformed sequences.  `localeLe a b` models the locale-sensitive
comparison `a.localeCompare(b) <= 0` that the recipient sort of
`encrypt` relies on; it is kept abstract because it depends on the
host ICU collation, and it need not agree with the code-unit order
`decrypt` uses on its keys. -/
structure Prims where
  scalarMultBase : Bytes → Bytes
  scalarMult : Bytes → Bytes → Bytes
  sha512 : Bytes → Bytes
  hmacSHA512 : Bytes → Bytes → Bytes
  aesCtrEncrypt : Bytes → Bytes → Bytes → Bytes
  aesCtrDecrypt : Bytes → Bytes → Bytes → Bytes
  b64encode : Bytes → String
  b64decode : String → Bytes
  utf8encode : String → Bytes
  utf8decode : Bytes → Option String
  localeLe : String → String → Bool

/-- The two 256-bit halves of a pairwise shared secret: `message` is the
encryption subkey, `hmac` the authentication subkey (multiParty.js,
`sharedSecret`). -/
structure SecretKey where
  message : Bytes
  hmac : Bytes
deriving DecidableEq, Inhabited

/-- A recipient as the module sees it: an identity label (`nickname`)
and, when resolved, the pairwise shared secret with the sender
(`mpSecretKey`). -/
structure Recipient where
  nickname : String
  mpSecretKey : Option SecretKey
deriving DecidableEq

/-- One envelope entry: Base64 ciphertext (`message`), Base64 12-byte
IV, and the Base64 per-recipient HMAC. -/
structure Entry where
  message : String
  iv : String
  hmac : String
deriving DecidableEq, Inhabited

/-- The wire envelope: per-recipient entries keyed by identity label
(in insertion order, as a JS object) and the aggregate tag. -/
structure Envelope where
  text : List (String × Entry)
  tag : String
deriving DecidableEq

/-- Code-point comparison on character lists: the comparison behind the
default JS array sort that `decrypt` applies to the envelope keys
(`Object.keys(encrypted).sort()` compares UTF-16 code units; on the
key strings considered here this coincides with code-point order).
The recipient sort of `encrypt` does NOT use this order — it uses the
host collation, kept abstract as `Prims.localeLe`. -/
def charsLe : List Char → List Char → Bool
  | [], _ => true
  | _ :: _, [] => false
  | a :: as, b :: bs =>
      if a.toNat < b.toNat then true
      else if b.toNat < a.toNat then false
      else charsLe as bs

/-- Lexicographic code-point order on strings. -/
def strLe (a b : String) : Bool :=
  charsLe a.data b.data

/-- The sorting relation on envelope keys (`Object.keys(encrypted).sort()`). -/
def sLe (a b : String) : Prop := strLe a b = true

instance : DecidableRel sLe := fun a b => instDecidableEqBool (strLe a b) true

/-- The sorting relation on recipients used by `encrypt`
(`sort((a, b) => a.nickname.localeCompare(b.nickname))`): the
locale-sensitive host collation, via the abstract comparator
`Prims.localeLe`.  This is a different order from the code-unit `sLe`
that `decrypt` applies to the envelope keys. -/
def nickLe (P : Prims) (a b : Recipient) : Prop :=
  P.localeLe a.nickname b.nickname = true

instance (P : Prims) : DecidableRel (nickLe P) := fun a b =>
  instDecidableEqBool (P.localeLe a.nickname b.nickname) true

/-- Zero-extends a byte string to a whole number of 32-bit words, the
padding a CryptoJS WordArray carries in its last word. -/
def padToWords (bs : Bytes) : Bytes :=
  bs ++ List.replicate ((4 - bs.length % 4) % 4) (0 : Byte)

/-- Model of `correctIvLength`: parse the Base64 IV and push one zero
word, so a 12-byte IV becomes the 16-byte counter block
iv-bytes followed by 00 00 00 00. -/
def correctIvLength (P : Prims) (iv : String) : Bytes :=
  padToWords (P.b64decode iv) ++ List.replicate 4 (0 : Byte)

/-- Model of `encryptAES`: AES-CTR with the extended counter block,
result Base64-encoded. -/
def encryptAES (P : Prims) (msg : Bytes) (c : Bytes) (iv : String) : String :=
  P.b64encode (P.aesCtrEncrypt msg c (correctIvLength P iv))

/-- Model of `decryptAES`: parse the Base64 ciphertext and run AES-CTR
with the same extended counter block. -/
def decryptAES (P : Prims) (msg : String) (c : Bytes) (iv : String) : Bytes :=
  P.aesCtrDecrypt (P.b64decode msg) c (correctIvLength P iv)

/-- Model of `HMAC`: HMAC-SHA512, Base64 encoded. -/
def HMAC (P : Prims) (msg : Bytes) (key : Bytes) : String :=
  P.b64encode (P.hmacSHA512 msg key)

/-- Model of `createMessageTag`: 8 rounds of SHA-512, Base64 encoded. -/
def createMessageTag (P : Prims) (message : Bytes) : String :=
  P.b64encode ((List.range 8).foldl (fun m _ => P.sha512 m) message)

/-- A public key as returned by `publicKeyFromPrivate`: raw bytes plus
the Base64 transport encoding. -/
structure PublicKey where
  raw : Bytes
  encoded : String
deriving DecidableEq

/-- Model of `publicKeyFromPrivate`: scalar multiplication against the
base point, kept raw and Base64 encoded. -/
def publicKeyFromPrivate (P : Prims) (privateKey : Bytes) : PublicKey :=
  { raw := P.scalarMultBase privateKey
    encoded := P.b64encode (P.scalarMultBase privateKey) }

/-- Model of `parsePublicKey`: Base64 parse followed by
`Uint8Array.fromWordArray`, which reads whole words and therefore
zero-extends to a multiple of 4 bytes. -/
def parsePublicKey (P : Prims) (encodedPublicKey : String) : Bytes :=
  padToWords (P.b64decode encodedPublicKey)

/-- Model of `sharedSecret`: SHA-512 of the DH output; words 0 to 7 (bytes
0 to 31) are the encryption subkey, words 8 to 15 (bytes 32 to 63) the HMAC
subkey. -/
def sharedSecret (P : Prims) (myPrivateKey theirPublicKey : Bytes) : SecretKey :=
  { message := (P.sha512 (P.scalarMult myPrivateKey theirPublicKey)).take 32
    hmac := ((P.sha512 (P.scalarMult myPrivateKey theirPublicKey)).drop 32).take 32 }

/-- JS object field read `encrypted[name]`: first entry with the given
key. -/
def getEntry (text : List (String × Entry)) (name : String) : Option Entry :=
  (text.find? fun p => p.1 == name).map Prod.snd

/-- JS object field write `encrypted[name] = e`: replace the entry at
the given key. -/
def setEntry (text : List (String × Entry)) (name : String) (e : Entry) :
    List (String × Entry) :=
  text.map fun p => if p.1 = name then (p.1, e) else p

/-- The IV generation loop of `encrypt`: draw Base64 encodings of
12 random bytes until one is not in `usedIVs`.  The unbounded retry
loop is given the random stream explicitly and returns `none` when the
stream is exhausted. -/
def freshIV (P : Prims) : List Bytes → List String → Option (String × List Bytes)
  | [], _ => none
  | c :: cs, usedIVs =>
      let iv := P.b64encode c
      if iv ∈ usedIVs then freshIV P cs usedIVs else some (iv, cs)

/-- First per-recipient loop of `encrypt`: generate and register an IV,
encrypt the padded plaintext, and accumulate the HMAC input
(ciphertext bytes then IV bytes, in recipient order).  Entries carry a
placeholder empty `hmac`, filled by the second loop. -/
def encryptLoop1 (P : Prims) (padded : Bytes) :
    List Recipient → List Bytes → List String →
    Option (List (String × Entry) × Bytes × List String × List Bytes)
  | [], ivs, usedIVs => some ([], [], usedIVs, ivs)
  | r :: rs, ivs, usedIVs =>
      match freshIV P ivs usedIVs with
      | none => none
      | some (iv, ivs') =>
          let msg := encryptAES P padded (r.mpSecretKey.getD default).message iv
          match encryptLoop1 P padded rs ivs' (usedIVs ++ [iv]) with
          | none => none
          | some (entries, hmacInput, usedF, ivsF) =>
              some ((r.nickname, { message := msg, iv := iv, hmac := "" }) :: entries,
                    (P.b64decode msg ++ P.b64decode iv) ++ hmacInput, usedF, ivsF)

/-- Second per-recipient loop of `encrypt`: compute each per-recipient
HMAC over the shared `hmacInput` and accumulate the parsed HMAC bytes
for the tag input. -/
def encryptLoop2 (P : Prims) (hmacInput : Bytes) :
    List Recipient → List (String × Entry) → List (String × Entry) × Bytes
  | r :: rs, (name, e) :: es =>
      let h := HMAC P hmacInput (r.mpSecretKey.getD default).hmac
      let rest := encryptLoop2 P hmacInput rs es
      ((name, { e with hmac := h }) :: rest.1, P.b64decode h ++ rest.2)
  | _, _ => ([], [])

/-- The filtered, sorted recipient list of `encrypt`: keep recipients
with a resolved shared secret, sort by identity label under the host
collation (`localeCompare`). -/
def sortRecipients (P : Prims) (recipients : List Recipient) : List Recipient :=
  List.insertionSort (nickLe P) (recipients.filter fun r => r.mpSecretKey.isSome)

/-- Model of `encrypt`.  `pad` is the 64 random padding bytes and `ivs`
the stream of random 12-byte IV candidates; `usedIVs` is the
process-wide registry, returned updated.  The only failure is
exhaustion of the random stream. -/
def encrypt (P : Prims) (plaintext : String) (recipients : List Recipient)
    (pad : Bytes) (ivs : List Bytes) (usedIVs : List String) :
    Option (Envelope × List String) :=
  match encryptLoop1 P (P.utf8encode plaintext ++ pad) (sortRecipients P recipients) ivs usedIVs with
  | none => none
  | some (entries0, hmacInput, usedF, _) =>
      some ({ text := (encryptLoop2 P hmacInput (sortRecipients P recipients) entries0).1,
              tag := createMessageTag P ((P.utf8encode plaintext ++ pad)
                ++ (encryptLoop2 P hmacInput (sortRecipients P recipients) entries0).2) },
            usedF)

/-- The HMAC input `encrypt` would feed every per-recipient MAC, exposed
for the ordering claims. -/
def encryptHmacInput (P : Prims) (plaintext : String) (recipients : List Recipient)
    (pad : Bytes) (ivs : List Bytes) (usedIVs : List String) : Option Bytes :=
  (encryptLoop1 P (P.utf8encode plaintext ++ pad) (sortRecipients P recipients) ivs usedIVs).map
    fun x => x.2.1

/-- The typed failure taxonomy of `decrypt` (the source throws strings;
the spec names these six variants). -/
inductive DecryptError where
  | notAddressedToMe
  | missingSenderKey
  | authenticationFailure
  | replayDetected
  | invalidPlaintextSize
  | tagFailure
deriving DecidableEq

/-- Successful return value of `decrypt`.  The normal path returns the
record with plaintext and missing recipients; the UTF-8 decode failure
path of the source returns the bare string, not the record. -/
inductive DecryptValue where
  | bareText (s : String)
  | result (plaintext : String) (missingRecipients : List String)
deriving DecidableEq

/-- Envelope keys sorted as `Object.keys(encrypted).sort()`. -/
def decryptSortedKeys (text : List (String × Entry)) : List String :=
  List.insertionSort sLe (text.map Prod.fst)

/-- Bytes contributed by the entry at one key (the lookup always
succeeds for keys drawn from the entry list itself). -/
def entryBytes (F : Entry → Bytes) (text : List (String × Entry)) (k : String) : Bytes :=
  match getEntry text k with
  | some e => F e
  | none => []

/-- Concatenation of per-entry bytes over all present entries in sorted
key order. -/
def keyedFlat (F : Entry → Bytes) (text : List (String × Entry)) : Bytes :=
  (decryptSortedKeys text).flatMap (entryBytes F text)

/-- The HMAC input recomputed by `decrypt`: over all present entries in
sorted key order, ciphertext bytes then IV bytes. -/
def decryptHmacInput (P : Prims) (text : List (String × Entry)) : Bytes :=
  keyedFlat (fun e => P.b64decode e.message ++ P.b64decode e.iv) text

/-- The per-recipient HMAC bytes appended to the decrypted plaintext
for the tag check, in the same sorted key order. -/
def decryptTagHmacs (P : Prims) (text : List (String × Entry)) : Bytes :=
  keyedFlat (fun e => P.b64decode e.hmac) text

/-- Model of `decrypt`.  `buddies` is `Object.keys(Cryptodog.buddies)`
and `myName` is `Cryptodog.me.nickname`; `usedIVs` is the shared
registry, returned updated.  Gates appear in source order: entry
presence, sender key, HMAC verification, IV replay (registering the IV
immediately), size floor, tag check, then UTF-8 decoding whose failure
returns the bare empty string. -/
def decrypt (P : Prims) (message : Envelope) (sender : Recipient)
    (myName : String) (buddies : List String) (usedIVs : List String) :
    Except DecryptError DecryptValue × List String :=
  match getEntry message.text myName with
  | none => (Except.error DecryptError.notAddressedToMe, usedIVs)
  | some myEntry =>
      match sender.mpSecretKey with
      | none => (Except.error DecryptError.missingSenderKey, usedIVs)
      | some senderKey =>
          let missingRecipients := buddies.filter fun r =>
            r != sender.nickname && (getEntry message.text r).isNone
          if myEntry.hmac ≠ HMAC P (decryptHmacInput P message.text) senderKey.hmac then
            (Except.error DecryptError.authenticationFailure, usedIVs)
          else if myEntry.iv ∈ usedIVs then
            (Except.error DecryptError.replayDetected, usedIVs)
          else
            let usedIVs' := usedIVs ++ [myEntry.iv]
            let plaintext := decryptAES P myEntry.message senderKey.message myEntry.iv
            if plaintext.length < 64 then
              (Except.error DecryptError.invalidPlaintextSize, usedIVs')
            else if createMessageTag P (plaintext ++ decryptTagHmacs P message.text) ≠ message.tag then
              (Except.error DecryptError.tagFailure, usedIVs')
            else
              match P.utf8decode (plaintext.take (plaintext.length - 64)) with
              | none => (Except.ok (DecryptValue.bareText ""), usedIVs')
              | some s => (Except.ok (DecryptValue.result s missingRecipients), usedIVs')

/-! ### Concrete instantiations of the primitive record

Small executable stand-ins for the external libraries, used to evaluate
the theorems on concrete inputs.  `tPrims` satisfies the inversion laws
(cipher inversion, Base64 round trip, UTF-8 round trip on ASCII) and
produces 64-byte digests; `iPrims` additionally has injective hash and
HMAC functions. -/

/-- Toy Base64: one character per byte. -/
def tb64encode (bs : Bytes) : String :=
  String.mk (bs.map fun b => Char.ofNat b.val)

/-- Toy Base64 parse, inverse of `tb64encode`. -/
def tb64decode (s : String) : Bytes :=
  s.data.map fun c => (⟨c.toNat % 256, Nat.mod_lt _ (by omega)⟩ : Byte)

/-- Toy UTF-8 encoding: code points, truncated to bytes. -/
def tutf8encode (s : String) : Bytes :=
  s.data.map fun c => (⟨c.toNat % 256, Nat.mod_lt _ (by omega)⟩ : Byte)

/-- Toy UTF-8 decoding: accepts ASCII only, signalling failure with
`none` otherwise. -/
def tutf8decode (bs : Bytes) : Option String :=
  if bs.all (fun b => b.val < 128) then some (String.mk (bs.map fun b => Char.ofNat b.val))
  else none

/-- Case folding for the toy collation: uppercase ASCII letters are
mapped to their lowercase forms. -/
def tfold (s : String) : List Char :=
  s.data.map fun c => if 65 ≤ c.toNat ∧ c.toNat ≤ 90 then Char.ofNat (c.toNat + 32) else c

/-- Toy model of the host `localeCompare` collation: primary comparison
on case-folded letters, ties broken by code points.  Like ICU it
orders the label alice before Bob, while the code-unit comparison of
the default key sort orders Bob before alice. -/
def tlocaleLe (a b : String) : Bool :=
  if tfold a = tfold b then charsLe a.data b.data else charsLe (tfold a) (tfold b)

/-- Toy key stream byte derived from key and counter block. -/
def tmix (c iv : Bytes) : Byte :=
  (c ++ iv).foldl (fun a b => a + b) 0

/-- Byte sum of a list, used by the toy DH functions. -/
def tsumN (bs : Bytes) : Nat :=
  bs.foldl (fun a b => a + b.val) 0

/-- Executable primitive record with invertible cipher and codecs. -/
def tPrims : Prims :=
  { scalarMultBase := fun priv => List.replicate 32 ((3 : Byte) ^ tsumN priv)
    scalarMult := fun s p => p.map fun x => x ^ tsumN s
    sha512 := fun bs => List.replicate 64 (bs.foldl (fun a b => a + b) 1)
    hmacSHA512 := fun m k => List.replicate 64 ((m.foldl (fun a b => a + b) 2) + k.foldl (fun a b => a + b) 3)
    aesCtrEncrypt := fun m c iv => m.map fun b => b + tmix c iv
    aesCtrDecrypt := fun m c iv => m.map fun b => b - tmix c iv
    b64encode := tb64encode
    b64decode := tb64decode
    utf8encode := tutf8encode
    utf8decode := tutf8decode
    localeLe := tlocaleLe }

/-- Executable primitive record whose hash and HMAC are injective. -/
def iPrims : Prims :=
  { scalarMultBase := fun priv => List.replicate 32 ((3 : Byte) ^ tsumN priv)
    scalarMult := fun s p => p.map fun x => x ^ tsumN s
    sha512 := fun bs => (0 : Byte) :: bs
    hmacSHA512 := fun m k => k ++ (1 : Byte) :: m
    aesCtrEncrypt := fun m c iv => m.map fun b => b + tmix c iv
    aesCtrDecrypt := fun m c iv => m.map fun b => b - tmix c iv
    b64encode := tb64encode
    b64decode := tb64decode
    utf8encode := tutf8encode
    utf8decode := tutf8decode
    localeLe := tlocaleLe }

/-! ### Tampering model

A single-byte modification of an entry targets the underlying bytes of
one of the three fields; the modified bytes are re-encoded into the
envelope. -/

/-- Which field of an envelope entry is modified. -/
inductive TamperField where
  | message
  | iv
  | hmac
deriving DecidableEq

/-- The bytes a field of an entry decodes to. -/
def fieldBytes (P : Prims) (f : TamperField) (e : Entry) : Bytes :=
  match f with
  | TamperField.message => P.b64decode e.message
  | TamperField.iv => P.b64decode e.iv
  | TamperField.hmac => P.b64decode e.hmac

/-- Replace the bytes of one field of an entry. -/
def tamperEntry (P : Prims) (f : TamperField) (bs : Bytes) (e : Entry) : Entry :=
  match f with
  | TamperField.message => { e with message := P.b64encode bs }
  | TamperField.iv => { e with iv := P.b64encode bs }
  | TamperField.hmac => { e with hmac := P.b64encode bs }

/-! ### Concrete scenario used to evaluate the theorems -/

/-- Shared secret between the sender and alice. -/
def kA : SecretKey := ⟨[1], [2]⟩

/-- Shared secret between the sender and bob. -/
def kB : SecretKey := ⟨[3], [4]⟩

/-- Recipient alice with a resolved secret. -/
def aliceR : Recipient := ⟨"alice", some kA⟩

/-- Recipient bob with a resolved secret. -/
def bobR : Recipient := ⟨"bob", some kB⟩

/-- The sender as alice sees them (same pairwise secret as `aliceR`). -/
def senderA : Recipient := ⟨"sender", some kA⟩

/-- Concrete 64-byte random padding. -/
def padC : Bytes := List.replicate 64 0

/-- Concrete random IV candidate stream. -/
def ivsC : List Bytes := [[10], [11]]

/-- Concrete envelope production: the sender encrypts for alice with an
empty process registry. -/
def encC1 : Option (Envelope × List String) :=
  encrypt tPrims "hi" [aliceR] padC ivsC []

/-- The envelope produced by `encC1`. -/
def envC1 : Envelope := (encC1.getD (⟨[], ""⟩, [])).1

/-- The registry state after `encC1`, holding the IV just drawn. -/
def usedC1 : List String := (encC1.getD (⟨[], ""⟩, [])).2

/-- The same envelope with a corrupted aggregate tag. -/
def envC5 : Envelope := ⟨envC1.text, "x"⟩

/-- Concrete two-recipient envelope under the injective primitives. -/
def encC2 : Option (Envelope × List String) :=
  encrypt iPrims "hi" [bobR, aliceR] padC ivsC []

/-- The two-recipient envelope of `encC2`. -/
def envC2 : Envelope := (encC2.getD (⟨[], ""⟩, [])).1

/-- The registry state after `encC2`. -/
def usedC2 : List String := (encC2.getD (⟨[], ""⟩, [])).2

/-- The entry of recipient bob inside `envC2`. -/
def exC2 : Entry := (getEntry envC2.text "bob").getD default

/-- Single-byte modification of the per-recipient HMAC of bob. -/
def tampC2 : Bytes :=
  (fieldBytes iPrims TamperField.hmac exC2).set 0
    ((fieldBytes iPrims TamperField.hmac exC2).headD 0 + 1)

/-- The tampered envelope: bob gets the modified HMAC, the rest is kept. -/
def envC2t : Envelope :=
  ⟨setEntry envC2.text "bob" (tamperEntry iPrims TamperField.hmac tampC2 exC2), envC2.tag⟩

/-- Concrete IV for the crafted envelopes. -/
def ivC6 : String := tb64encode [9]

/-- Crafted ciphertext whose body decrypts to a single byte. -/
def msgC6 : String := encryptAES tPrims [5] kA.message ivC6

/-- Valid per-recipient HMAC for the crafted short envelope. -/
def hC6 : String := HMAC tPrims (tb64decode msgC6 ++ tb64decode ivC6) kA.hmac

/-- Crafted envelope whose body is under 64 bytes but whose HMAC gate
passes. -/
def envC6 : Envelope := ⟨[("alice", ⟨msgC6, ivC6, hC6⟩)], "t"⟩

/-- Decrypted body for the decode-failure scenario: 65 bytes whose
unpadded remainder is not valid ASCII. -/
def ptC7 : Bytes := 200 :: List.replicate 64 0

/-- Crafted ciphertext for the decode-failure scenario. -/
def msgC7 : String := encryptAES tPrims ptC7 kA.message ivC6

/-- Valid per-recipient HMAC for the decode-failure scenario. -/
def hC7 : String := HMAC tPrims (tb64decode msgC7 ++ tb64decode ivC6) kA.hmac

/-- Valid aggregate tag for the decode-failure scenario. -/
def tagC7 : String := createMessageTag tPrims (ptC7 ++ tb64decode hC7)

/-- Crafted envelope that passes every cryptographic gate but whose
body is not decodable text. -/
def envC7 : Envelope := ⟨[("alice", ⟨msgC7, ivC6, hC7⟩)], tagC7⟩

/-- Decidable equality on decrypt outcomes, for evaluating concrete
runs. -/
instance : DecidableEq (Except DecryptError DecryptValue) := fun a b =>
  match a, b with
  | Except.error x, Except.error y => decidable_of_iff (x = y) (by simp)
  | Except.error _, Except.ok _ => isFalse (by simp)
  | Except.ok _, Except.error _ => isFalse (by simp)
  | Except.ok x, Except.ok y => decidable_of_iff (x = y) (by simp)

/-- Concrete 12-byte IV encoding for the counter-block claim. -/
def ivC9 : String := tb64encode (List.replicate 12 3)

/-- Concrete two-recipient envelope for the ordering claim, recipients
supplied in reverse alphabetical order. -/
def encC3 : Option (Envelope × List String) :=
  encrypt tPrims "hi" [bobR, aliceR] padC ivsC []

/-- The envelope produced by `encC3`. -/
def envC3 : Envelope := (encC3.getD (⟨[], ""⟩, [])).1

/-- The registry state after `encC3`. -/
def usedC3 : List String := (encC3.getD (⟨[], ""⟩, [])).2

/-- Recipient with a mixed-case label: the host collation sorts it
after alice, the code-unit key sort sorts it before alice. -/
def BobR : Recipient := ⟨"Bob", some kB⟩

/-- Envelope for the order-mismatch counterexample: the sender encrypts
for alice and Bob under the injective primitives. -/
def encCB : Option (Envelope × List String) :=
  encrypt iPrims "hi" [BobR, aliceR] padC ivsC []

/-- The envelope produced by `encCB`. -/
def envCB : Envelope := (encCB.getD (⟨[], ""⟩, [])).1

/-- The registry state after `encCB`. -/
def usedCB : List String := (encCB.getD (⟨[], ""⟩, [])).2

-- ===== theorems =====

/-! ### Laws satisfied by the concrete primitive records -/

/-- Each byte survives the toy character codec. -/
theorem tchar_toNat : ∀ b : Byte, (Char.ofNat b.val).toNat % 256 = b.val := by decide

/-- The toy Base64 codec round-trips every byte string. -/
theorem tb64_roundtrip : ∀ bs : Bytes, tb64decode (tb64encode bs) = bs
  | [] => rfl
  | b :: bs => by
      have ih := tb64_roundtrip bs
      have hb : (⟨(Char.ofNat b.val).toNat % 256, Nat.mod_lt _ (by omega)⟩ : Byte) = b :=
        Fin.ext (tchar_toNat b)
      calc tb64decode (tb64encode (b :: bs))
          = (⟨(Char.ofNat b.val).toNat % 256, Nat.mod_lt _ (by omega)⟩ : Byte)
              :: tb64decode (tb64encode bs) := rfl
        _ = b :: bs := by rw [ih, hb]

/-- The toy counter-mode cipher of `tPrims` is invertible. -/
theorem tctr_inv (m c iv : Bytes) :
    tPrims.aesCtrDecrypt (tPrims.aesCtrEncrypt m c iv) c iv = m := by
  show ((m.map fun b => b + tmix c iv).map fun b => b - tmix c iv) = m
  have hcomp : ((fun b => b - tmix c iv) ∘ fun b : Byte => b + tmix c iv) = id := by
    funext b
    simp [add_sub_cancel_right]
  rw [List.map_map, hcomp, List.map_id]

/-- The toy counter-mode cipher of `iPrims` is invertible. -/
theorem ictr_inv (m c iv : Bytes) :
    iPrims.aesCtrDecrypt (iPrims.aesCtrEncrypt m c iv) c iv = m := by
  show ((m.map fun b => b + tmix c iv).map fun b => b - tmix c iv) = m
  have hcomp : ((fun b => b - tmix c iv) ∘ fun b : Byte => b + tmix c iv) = id := by
    funext b
    simp [add_sub_cancel_right]
  rw [List.map_map, hcomp, List.map_id]

/-- Base64 encoding is injective whenever parsing inverts it. -/
theorem b64encode_inj (P : Prims) (h : ∀ bs, P.b64decode (P.b64encode bs) = bs)
    {a b : Bytes} (hab : P.b64encode a = P.b64encode b) : a = b := by
  have hd := congrArg P.b64decode hab
  rwa [h, h] at hd

/-- The hash of `iPrims` is injective. -/
theorem isha_inj {a b : Bytes} (h : iPrims.sha512 a = iPrims.sha512 b) : a = b := by
  simpa [iPrims] using h

/-- The HMAC of `iPrims` is injective in its message argument. -/
theorem ihmac_inj (k : Bytes) {m₁ m₂ : Bytes}
    (h : iPrims.hmacSHA512 m₁ k = iPrims.hmacSHA512 m₂ k) : m₁ = m₂ := by
  simp only [iPrims] at h
  exact (List.cons.injEq _ _ _ _).mp (List.append_cancel_left h) |>.2

/-! ### C9: counter block construction -/

/-- C9: for every IV whose Base64 parse is 12 bytes, the counter block
passed to the counter-mode cipher by both the encryption and the
decryption path is exactly those 12 bytes zero-extended with four
trailing zero bytes to a 16-byte block. -/
theorem mp_C9 (P : Prims) (iv : String) (h12 : (P.b64decode iv).length = 12)
    (m k : Bytes) (s : String) :
    correctIvLength P iv = P.b64decode iv ++ List.replicate 4 (0 : Byte) ∧
    encryptAES P m k iv
      = P.b64encode (P.aesCtrEncrypt m k (P.b64decode iv ++ List.replicate 4 (0 : Byte))) ∧
    decryptAES P s k iv
      = P.aesCtrDecrypt (P.b64decode s) k (P.b64decode iv ++ List.replicate 4 (0 : Byte)) := by
  have hpad : correctIvLength P iv = P.b64decode iv ++ List.replicate 4 (0 : Byte) := by
    unfold correctIvLength padToWords
    rw [h12]
    simp
  exact ⟨hpad, by rw [encryptAES, hpad], by rw [decryptAES, hpad]⟩

/-- Evaluation of `mp_C9` on a concrete 12-byte IV under the concrete
primitives. -/
theorem mp_C9_witness :
    (tPrims.b64decode ivC9).length = 12 ∧
    correctIvLength tPrims ivC9 = tPrims.b64decode ivC9 ++ List.replicate 4 (0 : Byte) :=
  ⟨by decide, (mp_C9 tPrims ivC9 (by decide) [1] [2] "a").1⟩

/-! ### C10: public key transport round trip -/

/-- C10: parsing the Base64 transport encoding produced by
`publicKeyFromPrivate` returns exactly the raw public key bytes, since
the 32-byte point is already word-aligned. -/
theorem mp_C10 (P : Prims) (priv : Bytes)
    (h32 : (P.scalarMultBase priv).length = 32)
    (hB64 : P.b64decode (P.b64encode (P.scalarMultBase priv)) = P.scalarMultBase priv) :
    parsePublicKey P (publicKeyFromPrivate P priv).encoded = (publicKeyFromPrivate P priv).raw := by
  unfold parsePublicKey publicKeyFromPrivate padToWords
  simp only
  rw [hB64, h32]
  simp

/-- Evaluation of `mp_C10` on a concrete private key. -/
theorem mp_C10_witness :
    parsePublicKey tPrims (publicKeyFromPrivate tPrims [1]).encoded
      = (publicKeyFromPrivate tPrims [1]).raw :=
  mp_C10 tPrims [1] (by decide) (tb64_roundtrip _)

/-! ### C8: shared secret derivation -/

/-- C8: the shared secret is the 512-bit hash of the DH output split
into bytes 0 to 31 (`message`) and bytes 32 to 63 (`hmac`); assuming the
scalar-multiplication primitive commutes on the two key pairs, the
derivation is symmetric in both subkeys. -/
theorem mp_C8 (P : Prims) (a b : Bytes)
    (hlen : (P.sha512 (P.scalarMult a (publicKeyFromPrivate P b).raw)).length = 64)
    (hcomm : P.scalarMult a (publicKeyFromPrivate P b).raw
      = P.scalarMult b (publicKeyFromPrivate P a).raw) :
    (sharedSecret P a (publicKeyFromPrivate P b).raw).message
      = (P.sha512 (P.scalarMult a (publicKeyFromPrivate P b).raw)).take 32 ∧
    (sharedSecret P a (publicKeyFromPrivate P b).raw).hmac
      = (P.sha512 (P.scalarMult a (publicKeyFromPrivate P b).raw)).drop 32 ∧
    sharedSecret P a (publicKeyFromPrivate P b).raw
      = sharedSecret P b (publicKeyFromPrivate P a).raw := by
  refine ⟨rfl, ?_, ?_⟩
  · show ((P.sha512 (P.scalarMult a (publicKeyFromPrivate P b).raw)).drop 32).take 32 = _
    apply List.take_of_length_le
    rw [List.length_drop, hlen]
  · unfold sharedSecret
    rw [hcomm]

/-- Evaluation of `mp_C8` on concrete key pairs: the toy DH commutes and
the derived secrets agree. -/
theorem mp_C8_witness :
    sharedSecret tPrims [1] (publicKeyFromPrivate tPrims [2]).raw
      = sharedSecret tPrims [2] (publicKeyFromPrivate tPrims [1]).raw :=
  (mp_C8 tPrims [1] [2] (by decide) (by decide)).2.2

/-! ### C6: size floor before tag verification -/

/-- C6: once the earlier gates pass (entry present, sender key
resolved, HMAC verified, IV fresh), an entry whose decryption is under
64 bytes fails with `invalidPlaintextSize` for every aggregate tag
value, so the failure occurs before any tag verification is attempted. -/
theorem mp_C6 (P : Prims) (text : List (String × Entry)) (sender : Recipient)
    (myName : String) (buddies used : List String) (senderKey : SecretKey) (e : Entry)
    (hSk : sender.mpSecretKey = some senderKey)
    (hE : getEntry text myName = some e)
    (hAuth : e.hmac = HMAC P (decryptHmacInput P text) senderKey.hmac)
    (hIv : e.iv ∉ used)
    (hShort : (decryptAES P e.message senderKey.message e.iv).length < 64) :
    ∀ tag, decrypt P ⟨text, tag⟩ sender myName buddies used
      = (Except.error DecryptError.invalidPlaintextSize, used ++ [e.iv]) := by
  intro tag
  unfold decrypt
  simp only [hE, hSk, hAuth, hIv, hShort, ne_eq, not_true_eq_false, if_false,
    not_false_eq_true, if_true, if_pos]

/-- Evaluation of `mp_C6` on the crafted short envelope. -/
theorem mp_C6_witness :
    decrypt tPrims envC6 senderA "alice" ["alice", "sender"] []
      = (Except.error DecryptError.invalidPlaintextSize, [] ++ [ivC6]) :=
  mp_C6 tPrims envC6.text senderA "alice" ["alice", "sender"] [] kA ⟨msgC6, ivC6, hC6⟩
    (by decide) (by decide) (by decide) (by decide) (by decide) "t"

/-! ### C5: failure effects on the registry -/

/-- C5 (amended): failed decryption never releases plaintext (the error
branches carry no `DecryptValue`), and the registry is unchanged by the
four gates up to replay detection; the size and tag gates, which run
after the source registers the IV, leave exactly that one fresh IV
registered. -/
theorem mp_C5 (P : Prims) (env : Envelope) (sender : Recipient) (myName : String)
    (buddies used : List String) (err : DecryptError) (used' : List String)
    (h : decrypt P env sender myName buddies used = (Except.error err, used')) :
    ((err = DecryptError.notAddressedToMe ∨ err = DecryptError.missingSenderKey ∨
        err = DecryptError.authenticationFailure ∨ err = DecryptError.replayDetected) →
      used' = used) ∧
    ((err = DecryptError.invalidPlaintextSize ∨ err = DecryptError.tagFailure) →
      ∃ e, getEntry env.text myName = some e ∧ e.iv ∉ used ∧ used' = used ++ [e.iv]) := by
  unfold decrypt at h
  split at h
  · obtain ⟨h1, h2⟩ := Prod.mk.injEq .. |>.mp h
    obtain rfl := Except.error.inj h1
    exact ⟨fun _ => h2.symm, by simp⟩
  · split at h
    · obtain ⟨h1, h2⟩ := Prod.mk.injEq .. |>.mp h
      obtain rfl := Except.error.inj h1
      exact ⟨fun _ => h2.symm, by simp⟩
    · split at h
      · obtain ⟨h1, h2⟩ := Prod.mk.injEq .. |>.mp h
        obtain rfl := Except.error.inj h1
        exact ⟨fun _ => h2.symm, by simp⟩
      · split at h
        · obtain ⟨h1, h2⟩ := Prod.mk.injEq .. |>.mp h
          obtain rfl := Except.error.inj h1
          exact ⟨fun _ => h2.symm, by simp⟩
        · dsimp only at h
          split at h
          · obtain ⟨h1, h2⟩ := Prod.mk.injEq .. |>.mp h
            obtain rfl := Except.error.inj h1
            refine ⟨by simp, fun _ => ?_⟩
            exact ⟨_, by assumption, by assumption, h2.symm⟩
          · split at h
            · obtain ⟨h1, h2⟩ := Prod.mk.injEq .. |>.mp h
              obtain rfl := Except.error.inj h1
              refine ⟨by simp, fun _ => ?_⟩
              exact ⟨_, by assumption, by assumption, h2.symm⟩
            · split at h
              · exact absurd (Prod.mk.injEq .. |>.mp h).1 (by simp)
              · exact absurd (Prod.mk.injEq .. |>.mp h).1 (by simp)

/-- C5 counterexample: a tag failure leaves the registry changed — the
entry IV was registered before the tag gate ran, so the failed call
does not leave the shared state unchanged as the claim requires. -/
theorem mp_C5_cex :
    (decrypt tPrims envC5 senderA "alice" ["alice", "sender"] []).1
      = Except.error DecryptError.tagFailure ∧
    (decrypt tPrims envC5 senderA "alice" ["alice", "sender"] []).2 ≠ [] := by decide

/-- Evaluation of `mp_C5` on the concrete tag-failure run. -/
theorem mp_C5_witness :
    ∃ e, getEntry envC5.text "alice" = some e ∧ e.iv ∉ ([] : List String) ∧
      (decrypt tPrims envC5 senderA "alice" ["alice", "sender"] []).2 = [] ++ [e.iv] :=
  (mp_C5 tPrims envC5 senderA "alice" ["alice", "sender"] [] DecryptError.tagFailure
      (decrypt tPrims envC5 senderA "alice" ["alice", "sender"] []).2 (by decide)).2
    (Or.inr rfl)

/-! ### C7: decode failure returns a bare empty string -/

/-- C7 counterexample: an envelope that passes every cryptographic gate
but whose unpadded body is not valid text makes `decrypt` return the
bare empty string, not a record of the declared
plaintext-plus-missing-recipients shape. -/
theorem mp_C7_cex :
    (decrypt tPrims envC7 senderA "alice" ["alice", "sender"] []).1
      = Except.ok (DecryptValue.bareText "") ∧
    ∀ p m, (decrypt tPrims envC7 senderA "alice" ["alice", "sender"] []).1
      ≠ Except.ok (DecryptValue.result p m) := by
  refine ⟨by decide, fun p m hc => ?_⟩
  have h1 : (decrypt tPrims envC7 senderA "alice" ["alice", "sender"] []).1
      = Except.ok (DecryptValue.bareText "") := by decide
  rw [h1] at hc
  exact DecryptValue.noConfusion (Except.ok.inj hc)

/-- C7 (amended): when every cryptographic gate passes and text
decoding fails, `decrypt` does not propagate an error: it returns
success carrying the bare empty string (the literal return of the source),
dropping the missing-recipients report. -/
theorem mp_C7 (P : Prims) (text : List (String × Entry)) (tag : String) (sender : Recipient)
    (myName : String) (buddies used : List String) (senderKey : SecretKey) (e : Entry)
    (hSk : sender.mpSecretKey = some senderKey)
    (hE : getEntry text myName = some e)
    (hAuth : e.hmac = HMAC P (decryptHmacInput P text) senderKey.hmac)
    (hIv : e.iv ∉ used)
    (hLen : ¬ (decryptAES P e.message senderKey.message e.iv).length < 64)
    (hTag : createMessageTag P (decryptAES P e.message senderKey.message e.iv
        ++ decryptTagHmacs P text) = tag)
    (hDec : P.utf8decode ((decryptAES P e.message senderKey.message e.iv).take
        ((decryptAES P e.message senderKey.message e.iv).length - 64)) = none) :
    decrypt P ⟨text, tag⟩ sender myName buddies used
      = (Except.ok (DecryptValue.bareText ""), used ++ [e.iv]) := by
  unfold decrypt
  simp only [hE, hSk, hAuth, hIv, hLen, hTag, hDec, ne_eq, not_true_eq_false, if_false,
    not_false_eq_true, if_true]

/-- Evaluation of `mp_C7` on the crafted undecodable envelope. -/
theorem mp_C7_witness :
    decrypt tPrims envC7 senderA "alice" ["alice", "sender"] []
      = (Except.ok (DecryptValue.bareText ""), [] ++ [ivC6]) :=
  mp_C7 tPrims envC7.text tagC7 senderA "alice" ["alice", "sender"] [] kA ⟨msgC7, ivC6, hC7⟩
    (by decide) (by decide) (by decide) (by decide) (by decide) (by decide) (by decide)

/-! ### C1 counterexample: the shared registry blocks the round trip -/

/-- C1 counterexample: with the single process-wide registry, the IV
registered during `encrypt` makes `decrypt` run by that very recipient fail
with `replayDetected` instead of succeeding, so the round trip through
the same registry does not return the plaintext. -/
theorem mp_C1_cex :
    encC1 = some (envC1, usedC1) ∧
    (decrypt tPrims envC1 senderA "alice" ["alice", "sender"] usedC1).1
      = Except.error DecryptError.replayDetected := by decide

/-- Inversion of a successful decryption: every gate passed and the
registry gained exactly the IV of the entry addressed to the caller. -/
theorem decrypt_ok_spec (P : Prims) (env : Envelope) (sender : Recipient) (myName : String)
    (buddies used : List String) (v : DecryptValue) (used₁ : List String)
    (h : decrypt P env sender myName buddies used = (Except.ok v, used₁)) :
    ∃ e senderKey, getEntry env.text myName = some e ∧ sender.mpSecretKey = some senderKey ∧
      e.hmac = HMAC P (decryptHmacInput P env.text) senderKey.hmac ∧ e.iv ∉ used ∧
      used₁ = used ++ [e.iv] := by
  unfold decrypt at h
  split at h
  · exact absurd (Prod.mk.injEq .. |>.mp h).1 (by simp)
  · split at h
    · exact absurd (Prod.mk.injEq .. |>.mp h).1 (by simp)
    · split at h
      · exact absurd (Prod.mk.injEq .. |>.mp h).1 (by simp)
      · split at h
        · exact absurd (Prod.mk.injEq .. |>.mp h).1 (by simp)
        · dsimp only at h
          split at h
          · exact absurd (Prod.mk.injEq .. |>.mp h).1 (by simp)
          · split at h
            · exact absurd (Prod.mk.injEq .. |>.mp h).1 (by simp)
            · split at h
              · exact ⟨_, _, by assumption, by assumption, not_ne_iff.mp (by assumption),
                  by assumption, (Prod.mk.injEq .. |>.mp h).2.symm⟩
              · exact ⟨_, _, by assumption, by assumption, not_ne_iff.mp (by assumption),
                  by assumption, (Prod.mk.injEq .. |>.mp h).2.symm⟩

/-! ### C4: replay rejection -/

/-- C4: replaying an envelope is rejected: if a decryption for an
identity succeeds, decrypting the same envelope again from the updated
registry fails with `replayDetected`; and whenever the IV of the entry
addressed to the caller is already registered, no decryption from that
registry can succeed. -/
theorem mp_C4 (P : Prims) (env : Envelope) (sender : Recipient) (myName : String)
    (buddies used : List String) :
    (∀ v used₁, decrypt P env sender myName buddies used = (Except.ok v, used₁) →
      decrypt P env sender myName buddies used₁
        = (Except.error DecryptError.replayDetected, used₁)) ∧
    (∀ e, getEntry env.text myName = some e → e.iv ∈ used →
      ∀ v u, decrypt P env sender myName buddies used ≠ (Except.ok v, u)) := by
  constructor
  · intro v used₁ h
    obtain ⟨e, senderKey, hE, hSk, hAuth, hIv, hU⟩ :=
      decrypt_ok_spec P env sender myName buddies used v used₁ h
    subst hU
    unfold decrypt
    simp only [hE, hSk, hAuth, ne_eq, not_true_eq_false, if_false, List.mem_append,
      List.mem_singleton, or_true, if_true]
  · intro e hE hmem v u hcontra
    unfold decrypt at hcontra
    split at hcontra
    · rename_i hnone
      rw [hE] at hnone
      exact Option.noConfusion hnone
    · rename_i myEntry hEq
      obtain rfl : myEntry = e := Option.some.inj (hEq.symm.trans hE)
      split at hcontra
      · exact absurd (Prod.mk.injEq .. |>.mp hcontra).1 (by simp)
      · split at hcontra
        · exact absurd (Prod.mk.injEq .. |>.mp hcontra).1 (by simp)
        · dsimp only at hcontra
          exact absurd (Prod.mk.injEq .. |>.mp hcontra).1 (by simp)

/-- Evaluation of `mp_C4` on the concrete envelope: decrypting with a
fresh registry succeeds once with the original plaintext, and the
repeat run from the updated registry is rejected as a replay. -/
theorem mp_C4_witness :
    decrypt tPrims envC1 senderA "alice" ["alice", "sender"] []
      = (Except.ok (DecryptValue.result "hi" []),
         (decrypt tPrims envC1 senderA "alice" ["alice", "sender"] []).2) ∧
    decrypt tPrims envC1 senderA "alice" ["alice", "sender"]
        (decrypt tPrims envC1 senderA "alice" ["alice", "sender"] []).2
      = (Except.error DecryptError.replayDetected,
         (decrypt tPrims envC1 senderA "alice" ["alice", "sender"] []).2) :=
  ⟨by decide,
   (mp_C4 tPrims envC1 senderA "alice" ["alice", "sender"] []).1
     (DecryptValue.result "hi" [])
     (decrypt tPrims envC1 senderA "alice" ["alice", "sender"] []).2 (by decide)⟩

/-! ### Order properties of the sorting comparison -/

/-- The code-point comparison is total. -/
theorem charsLe_total : ∀ as bs : List Char, charsLe as bs = true ∨ charsLe bs as = true
  | [], _ => Or.inl rfl
  | _ :: _, [] => Or.inr rfl
  | a :: as, b :: bs => by
      unfold charsLe
      rcases Nat.lt_trichotomy a.toNat b.toNat with h | h | h
      · left
        rw [if_pos h]
      · rw [if_neg (by omega), if_neg (by omega), if_neg (by omega), if_neg (by omega)]
        exact charsLe_total as bs
      · right
        rw [if_pos h]

/-- The code-point comparison is transitive. -/
theorem charsLe_trans : ∀ as bs cs : List Char,
    charsLe as bs = true → charsLe bs cs = true → charsLe as cs = true
  | [], _, _, _, _ => rfl
  | _ :: _, [], _, h1, _ => by exact absurd h1 (by simp [charsLe])
  | _ :: _, _ :: _, [], _, h2 => by exact absurd h2 (by simp [charsLe])
  | a :: as, b :: bs, c :: cs, h1, h2 => by
      unfold charsLe at h1 h2 ⊢
      by_cases hab : a.toNat < b.toNat
      · by_cases hbc : b.toNat < c.toNat
        · rw [if_pos (by omega)]
        · rw [if_neg hbc] at h2
          by_cases hcb : c.toNat < b.toNat
          · rw [if_pos hcb] at h2
            exact absurd h2 (by decide)
          · rw [if_pos (by omega)]
      · rw [if_neg hab] at h1
        by_cases hba : b.toNat < a.toNat
        · rw [if_pos hba] at h1
          exact absurd h1 (by decide)
        · rw [if_neg hba] at h1
          by_cases hbc : b.toNat < c.toNat
          · rw [if_pos (by omega)]
          · rw [if_neg hbc] at h2
            by_cases hcb : c.toNat < b.toNat
            · rw [if_pos hcb] at h2
              exact absurd h2 (by decide)
            · rw [if_neg hcb] at h2
              rw [if_neg (by omega), if_neg (by omega)]
              exact charsLe_trans as bs cs h1 h2

/-- The code-point comparison is antisymmetric. -/
theorem charsLe_antisymm : ∀ as bs : List Char,
    charsLe as bs = true → charsLe bs as = true → as = bs
  | [], [], _, _ => rfl
  | [], _ :: _, _, h2 => by exact absurd h2 (by simp [charsLe])
  | _ :: _, [], h1, _ => by exact absurd h1 (by simp [charsLe])
  | a :: as, b :: bs, h1, h2 => by
      unfold charsLe at h1 h2
      by_cases hab : a.toNat < b.toNat
      · rw [if_neg (by omega), if_pos hab] at h2
        exact absurd h2 (by decide)
      · by_cases hba : b.toNat < a.toNat
        · rw [if_neg hab, if_pos hba] at h1
          exact absurd h1 (by decide)
        · rw [if_neg hab, if_neg hba] at h1
          rw [if_neg hba, if_neg hab] at h2
          have hc : a = b := by
            have : a.toNat = b.toNat := by omega
            rw [← Char.ofNat_toNat a, this, Char.ofNat_toNat]
          rw [hc, charsLe_antisymm as bs h1 h2]

/-- Totality of the string order. -/
theorem strLe_total (a b : String) : strLe a b = true ∨ strLe b a = true :=
  charsLe_total a.data b.data

/-- Transitivity of the string order. -/
theorem strLe_trans {a b c : String} (h1 : strLe a b = true) (h2 : strLe b c = true) :
    strLe a c = true :=
  charsLe_trans a.data b.data c.data h1 h2

/-- Antisymmetry of the string order. -/
theorem strLe_antisymm {a b : String} (h1 : strLe a b = true) (h2 : strLe b a = true) :
    a = b :=
  String.ext (charsLe_antisymm a.data b.data h1 h2)

/-- A permutation of recipients with distinct labels has a unique
arrangement sorted under a comparator that is antisymmetric on
labels. -/
theorem sorted_perm_nodup_eq (P : Prims)
    (hanti : ∀ a b : String, P.localeLe a b = true → P.localeLe b a = true → a = b) :
    ∀ {l₁ l₂ : List Recipient}, l₁.Perm l₂ →
      List.Sorted (nickLe P) l₁ → List.Sorted (nickLe P) l₂ →
      (l₁.map Recipient.nickname).Nodup → l₁ = l₂
  | [], _, hp, _, _, _ => hp.nil_eq
  | _ :: _, [], hp, _, _, _ => by exact absurd hp.eq_nil (by simp)
  | a :: t₁, b :: t₂, hp, hs₁, hs₂, hnd => by
      obtain ⟨hab1, hs₁t⟩ := List.sorted_cons.mp hs₁
      obtain ⟨hab2, hs₂t⟩ := List.sorted_cons.mp hs₂
      have hb : b = a := by
        rcases List.mem_cons.mp (hp.symm.subset (List.mem_cons_self b t₂)) with h | h
        · exact h
        · rcases List.mem_cons.mp (hp.subset (List.mem_cons_self a t₁)) with h' | h'
          · exact h'.symm
          · have hnick : a.nickname = b.nickname := hanti _ _ (hab1 b h) (hab2 a h')
            exact absurd (hnick ▸ List.mem_map_of_mem Recipient.nickname h)
              (List.nodup_cons.mp hnd).1
      subst hb
      rw [sorted_perm_nodup_eq P hanti hp.cons_inv hs₁t hs₂t (List.nodup_cons.mp hnd).2]

/-! ### Entry lookup and update lemmas -/

/-- Lookup in a cons entry list. -/
theorem getEntry_cons (p : String × Entry) (text : List (String × Entry)) (name : String) :
    getEntry (p :: text) name = if p.1 = name then some p.2 else getEntry text name := by
  unfold getEntry
  by_cases h : p.1 = name
  · rw [if_pos h, List.find?_cons_of_pos _ (by simpa using h)]
    rfl
  · rw [if_neg h, List.find?_cons_of_neg _ (by simpa using h)]

/-- A successful lookup means the key is present. -/
theorem getEntry_some_mem_keys {text : List (String × Entry)} {name : String} {e : Entry}
    (h : getEntry text name = some e) : name ∈ text.map Prod.fst := by
  induction text with
  | nil => exact Option.noConfusion h
  | cons p rest ih =>
      rw [getEntry_cons] at h
      by_cases hp : p.1 = name
      · exact hp ▸ List.mem_cons_self _ _
      · rw [if_neg hp] at h
        exact List.mem_cons_of_mem _ (ih h)

/-- A successful lookup returns a member entry. -/
theorem getEntry_some_mem {text : List (String × Entry)} {name : String} {e : Entry}
    (h : getEntry text name = some e) : ∃ p ∈ text, p.2 = e ∧ p.1 = name := by
  induction text with
  | nil => exact Option.noConfusion h
  | cons p rest ih =>
      rw [getEntry_cons] at h
      by_cases hp : p.1 = name
      · rw [if_pos hp] at h
        exact ⟨p, List.mem_cons_self _ _, Option.some.inj h, hp⟩
      · rw [if_neg hp] at h
        obtain ⟨q, hq, hqe, hqn⟩ := ih h
        exact ⟨q, List.mem_cons_of_mem _ hq, hqe, hqn⟩

/-- Updating an entry keeps the key list. -/
theorem setEntry_map_fst (text : List (String × Entry)) (name : String) (e : Entry) :
    (setEntry text name e).map Prod.fst = text.map Prod.fst := by
  unfold setEntry
  rw [List.map_map]
  apply List.map_congr_left
  intro p _
  by_cases h : p.1 = name
  · simp [h]
  · simp [h]

/-- Updating the looked-up key returns the new entry. -/
theorem getEntry_setEntry_self {text : List (String × Entry)} {name : String} {ex : Entry}
    (e : Entry) (h : getEntry text name = some ex) :
    getEntry (setEntry text name e) name = some e := by
  induction text with
  | nil => exact Option.noConfusion h
  | cons p rest ih =>
      rw [getEntry_cons] at h
      unfold setEntry
      rw [List.map_cons]
      by_cases hp : p.1 = name
      · rw [if_pos hp, getEntry_cons]
        simp [hp]
      · rw [if_neg hp, getEntry_cons]
        rw [if_neg hp] at h
        simpa [hp] using ih h

/-- Updating one key leaves every other lookup unchanged. -/
theorem getEntry_setEntry_ne (text : List (String × Entry)) (name k : String) (e : Entry)
    (hk : k ≠ name) : getEntry (setEntry text name e) k = getEntry text k := by
  induction text with
  | nil => rfl
  | cons p rest ih =>
      unfold setEntry
      rw [List.map_cons]
      by_cases hp : p.1 = name
      · rw [if_pos hp]
        have h1 : ¬ p.1 = k := fun hc => hk (by rw [← hc, hp])
        rw [getEntry_cons, getEntry_cons, if_neg h1, if_neg h1]
        exact ih
      · rw [if_neg hp, getEntry_cons, getEntry_cons]
        by_cases hpk : p.1 = k
        · rw [if_pos hpk, if_pos hpk]
        · rw [if_neg hpk, if_neg hpk]
          exact ih

/-- Concatenated per-key bytes depend only on the values at the keys. -/
theorem flatMap_congr_mem {l : List String} {f g : String → Bytes}
    (h : ∀ x ∈ l, f x = g x) : l.flatMap f = l.flatMap g := by
  induction l with
  | nil => rfl
  | cons a t ih =>
      rw [List.flatMap_cons, List.flatMap_cons, h a (List.mem_cons_self a t),
        ih fun x hx => h x (List.mem_cons_of_mem a hx)]

/-- Per-key accumulation over the key list of an entry list with
distinct keys reads off the entries in order. -/
theorem flatMap_entryBytes (F : Entry → Bytes) :
    ∀ text : List (String × Entry), (text.map Prod.fst).Nodup →
      (text.map Prod.fst).flatMap (entryBytes F text) = text.flatMap fun p => F p.2
  | [], _ => rfl
  | p :: rest, hnd => by
      rw [List.map_cons, List.flatMap_cons, List.flatMap_cons]
      have hhead : entryBytes F (p :: rest) p.1 = F p.2 := by
        unfold entryBytes
        rw [getEntry_cons, if_pos rfl]
      have hnotin : p.1 ∉ rest.map Prod.fst := (List.nodup_cons.mp hnd).1
      have htail : ∀ k ∈ rest.map Prod.fst,
          entryBytes F (p :: rest) k = entryBytes F rest k := by
        intro k hk
        unfold entryBytes
        have h1 : ¬ p.1 = k := fun hc => hnotin (by rw [hc]; exact hk)
        rw [getEntry_cons, if_neg h1]
      rw [hhead, flatMap_congr_mem htail,
        flatMap_entryBytes F rest (List.nodup_cons.mp hnd).2]

/-! ### Alignment lemmas between recipients and produced entries -/

/-- Entries aligned to recipients carry the recipient labels in order. -/
theorem forall₂_fst_eq {Q : Recipient → String × Entry → Prop}
    (hQ : ∀ r p, Q r p → p.1 = r.nickname) :
    ∀ {rs : List Recipient} {es : List (String × Entry)}, List.Forall₂ Q rs es →
      es.map Prod.fst = rs.map Recipient.nickname := by
  intro rs es h
  induction h with
  | nil => rfl
  | cons h _ ih => rw [List.map_cons, List.map_cons, hQ _ _ h, ih]

/-- With distinct labels, the lookup for a recipient inside aligned
entries returns exactly the aligned entry. -/
theorem forall₂_getEntry {Q : Recipient → String × Entry → Prop}
    (hQ : ∀ r p, Q r p → p.1 = r.nickname) :
    ∀ {rs : List Recipient} {es : List (String × Entry)}, List.Forall₂ Q rs es →
      (rs.map Recipient.nickname).Nodup →
      ∀ r ∈ rs, ∃ p, p ∈ es ∧ getEntry es r.nickname = some p.2 ∧ Q r p := by
  intro rs es h
  induction h with
  | nil =>
      intro _ r hr
      exact absurd hr (by simp)
  | @cons r₀ p₀ rs' es' hQ₀ htail ih =>
      intro hnd r hr
      rcases List.mem_cons.mp hr with rfl | hr'
      · refine ⟨p₀, List.mem_cons_self _ _, ?_, hQ₀⟩
        rw [getEntry_cons, if_pos (hQ _ _ hQ₀)]
      · have hne : ¬ p₀.1 = r.nickname := by
          rw [hQ _ _ hQ₀]
          intro hc
          exact (List.nodup_cons.mp hnd).1 (hc ▸ List.mem_map_of_mem Recipient.nickname hr')
        obtain ⟨p, hpmem, hpg, hpQ⟩ := ih (List.nodup_cons.mp hnd).2 r hr'
        refine ⟨p, List.mem_cons_of_mem _ hpmem, ?_, hpQ⟩
        rw [getEntry_cons, if_neg hne, hpg]

/-- Two alignments over the same lists combine. -/
theorem forall₂_entry_and {A C : Recipient → String × Entry → Prop} :
    ∀ {rs : List Recipient} {es : List (String × Entry)},
      List.Forall₂ A rs es → List.Forall₂ C rs es →
      List.Forall₂ (fun r p => A r p ∧ C r p) rs es := by
  intro rs es hA
  induction hA with
  | nil => intro _; exact List.Forall₂.nil
  | cons h _ ih =>
      intro hC
      cases hC with
      | cons hC₀ hCt => exact List.Forall₂.cons ⟨h, hC₀⟩ (ih hCt)

/-- Alignments compose through an intermediate entry list. -/
theorem forall₂_compose {A : Recipient → String × Entry → Prop}
    {B : String × Entry → String × Entry → Prop} :
    ∀ {rs : List Recipient} {es es' : List (String × Entry)},
      List.Forall₂ A rs es → List.Forall₂ B es es' →
      List.Forall₂ (fun r p => ∃ q, A r q ∧ B q p) rs es' := by
  intro rs es es' hA
  induction hA generalizing es' with
  | nil =>
      intro hB
      cases hB
      exact List.Forall₂.nil
  | cons h _ ih =>
      intro hB
      cases hB with
      | cons hB₀ hBt => exact List.Forall₂.cons ⟨_, h, hB₀⟩ (ih hBt)

/-- Per-entry accumulation is unchanged when aligned entries agree on
the accumulated field. -/
theorem forall₂_flatMap_congr {B : String × Entry → String × Entry → Prop}
    {F : String × Entry → Bytes} (hF : ∀ q p, B q p → F p = F q) :
    ∀ {es es' : List (String × Entry)}, List.Forall₂ B es es' →
      es'.flatMap F = es.flatMap F := by
  intro es es' h
  induction h with
  | nil => rfl
  | cons h _ ih => rw [List.flatMap_cons, List.flatMap_cons, hF _ _ h, ih]

/-! ### Characterization of the encryption loops -/

/-- The first loop of `encrypt` produces one entry per recipient, in
order, holding the ciphertext and IV of that recipient, and accumulates the
parsed ciphertext-and-IV bytes of the entries in the same order. -/
theorem encryptLoop1_spec (P : Prims) (padded : Bytes) :
    ∀ (rs : List Recipient) (ivs : List Bytes) (used : List String)
      (out : List (String × Entry) × Bytes × List String × List Bytes),
      encryptLoop1 P padded rs ivs used = some out →
      List.Forall₂ (fun r p => p.1 = r.nickname ∧ p.2.hmac = "" ∧
          p.2.message = encryptAES P padded (r.mpSecretKey.getD default).message p.2.iv)
        rs out.1 ∧
      out.2.1 = out.1.flatMap fun p => P.b64decode p.2.message ++ P.b64decode p.2.iv
  | [], ivs, used, out, h => by
      obtain rfl : (([], [], used, ivs) :
          List (String × Entry) × Bytes × List String × List Bytes) = out :=
        Option.some.inj h
      exact ⟨List.Forall₂.nil, rfl⟩
  | r :: rs, ivs, used, out, h => by
      unfold encryptLoop1 at h
      split at h
      · exact Option.noConfusion h
      · rename_i iv ivs₂ hfv
        dsimp only at h
        split at h
        · exact Option.noConfusion h
        · rename_i entries₂ hI₂ used₂ ivs₃ hrec
          obtain rfl := Option.some.inj h
          obtain ⟨hfa, hflat⟩ := encryptLoop1_spec P padded rs ivs₂ (used ++ [iv]) _ hrec
          refine ⟨List.Forall₂.cons ⟨rfl, rfl, rfl⟩ hfa, ?_⟩
          dsimp only at hflat ⊢
          rw [List.flatMap_cons, hflat]

/-- The second loop of `encrypt` keeps labels, ciphertexts and IVs,
sets each per-recipient HMAC over the shared input, and accumulates the
parsed HMAC bytes of the resulting entries in order. -/
theorem encryptLoop2_spec (P : Prims) (hI : Bytes) :
    ∀ (rs : List Recipient) (es : List (String × Entry)), rs.length = es.length →
      List.Forall₂ (fun pin pout : String × Entry => pout.1 = pin.1 ∧
          pout.2.message = pin.2.message ∧ pout.2.iv = pin.2.iv)
        es (encryptLoop2 P hI rs es).1 ∧
      List.Forall₂ (fun (r : Recipient) (pout : String × Entry) =>
          pout.2.hmac = HMAC P hI (r.mpSecretKey.getD default).hmac)
        rs (encryptLoop2 P hI rs es).1 ∧
      (encryptLoop2 P hI rs es).2
        = (encryptLoop2 P hI rs es).1.flatMap fun p => P.b64decode p.2.hmac
  | [], [], _ => ⟨List.Forall₂.nil, List.Forall₂.nil, rfl⟩
  | [], _ :: _, h => absurd h (by simp)
  | _ :: _, [], h => absurd h (by simp)
  | r :: rs, (name, e) :: es, h => by
      obtain ⟨h1, h2, h3⟩ := encryptLoop2_spec P hI rs es (by simpa using h)
      refine ⟨List.Forall₂.cons ⟨rfl, rfl, rfl⟩ h1, List.Forall₂.cons rfl h2, ?_⟩
      show P.b64decode (HMAC P hI (r.mpSecretKey.getD default).hmac)
          ++ (encryptLoop2 P hI rs es).2 = _
      rw [h3]
      rfl

/-- Labels are preserved by the second-loop alignment. -/
theorem forall₂_fst_preserved : ∀ {es es' : List (String × Entry)},
    List.Forall₂ (fun pin pout : String × Entry => pout.1 = pin.1 ∧
        pout.2.message = pin.2.message ∧ pout.2.iv = pin.2.iv) es es' →
    es'.map Prod.fst = es.map Prod.fst := by
  intro es es' h
  induction h with
  | nil => rfl
  | cons h _ ih => rw [List.map_cons, List.map_cons, h.1, ih]

/-- Characterization of a successful `encrypt`, under the hypothesis
that the collation-sorted recipient labels also stand in code-unit
order (true for example for all-lowercase ASCII labels; when it fails,
`decrypt` re-sorts the keys differently and authentication fails, see
the order-mismatch counterexample).  The envelope lists one entry per
collation-sorted resolved recipient carrying the ciphertext, IV and
HMAC of that recipient over the common input; the entry keys are then
already in the order `decrypt` recomputes; the HMAC input `decrypt`
rebuilds equals the one `encrypt` used; and the tag is the 8-round
hash of the padded plaintext followed by the parsed per-recipient
HMACs. -/
theorem encrypt_spec (P : Prims) (pt : String) (recipients : List Recipient)
    (pad : Bytes) (ivs : List Bytes) (used : List String) (env : Envelope)
    (used₁ : List String)
    (hnodup : (recipients.map Recipient.nickname).Nodup)
    (hagree : List.Sorted sLe ((sortRecipients P recipients).map Recipient.nickname))
    (hEnc : encrypt P pt recipients pad ivs used = some (env, used₁)) :
    ((sortRecipients P recipients).map Recipient.nickname).Nodup ∧
    env.text.map Prod.fst = (sortRecipients P recipients).map Recipient.nickname ∧
    decryptSortedKeys env.text = env.text.map Prod.fst ∧
    encryptHmacInput P pt recipients pad ivs used = some (decryptHmacInput P env.text) ∧
    List.Forall₂ (fun r p => p.1 = r.nickname ∧
        p.2.message = encryptAES P (P.utf8encode pt ++ pad)
          (r.mpSecretKey.getD default).message p.2.iv ∧
        p.2.hmac = HMAC P (decryptHmacInput P env.text) (r.mpSecretKey.getD default).hmac)
      (sortRecipients P recipients) env.text ∧
    env.tag = createMessageTag P ((P.utf8encode pt ++ pad) ++ decryptTagHmacs P env.text) := by
  have hS_nodup : ((sortRecipients P recipients).map Recipient.nickname).Nodup := by
    have hsub : ((recipients.filter fun r => r.mpSecretKey.isSome).map
        Recipient.nickname).Sublist (recipients.map Recipient.nickname) :=
      List.Sublist.map Recipient.nickname (List.filter_sublist recipients)
    have h1 := List.Nodup.sublist hsub hnodup
    exact ((List.perm_insertionSort (nickLe P) _).map Recipient.nickname).nodup_iff.mpr h1
  unfold encrypt at hEnc
  split at hEnc
  · exact Option.noConfusion hEnc
  · rename_i entries0 hI usedF ivsF hloop1
    obtain ⟨henv, hused⟩ := Prod.mk.injEq .. |>.mp (Option.some.inj hEnc)
    obtain rfl := henv
    obtain ⟨hfa1, hflat⟩ := encryptLoop1_spec P (P.utf8encode pt ++ pad)
      (sortRecipients P recipients) ivs used _ hloop1
    dsimp only at hfa1 hflat
    have hlen : (sortRecipients P recipients).length = entries0.length := hfa1.length_eq
    obtain ⟨hpres, hhmac, htagflat⟩ := encryptLoop2_spec P hI (sortRecipients P recipients)
      entries0 hlen
    have hkeys0 : entries0.map Prod.fst = (sortRecipients P recipients).map Recipient.nickname :=
      forall₂_fst_eq (fun _ _ h => h.1) hfa1
    have hkeys : (encryptLoop2 P hI (sortRecipients P recipients) entries0).1.map Prod.fst
        = (sortRecipients P recipients).map Recipient.nickname := by
      rw [forall₂_fst_preserved hpres, hkeys0]
    have hkn : ((encryptLoop2 P hI (sortRecipients P recipients) entries0).1.map Prod.fst).Nodup := by
      rw [hkeys]
      exact hS_nodup
    have hsortKeys : decryptSortedKeys (encryptLoop2 P hI (sortRecipients P recipients) entries0).1
        = (encryptLoop2 P hI (sortRecipients P recipients) entries0).1.map Prod.fst := by
      apply List.Sorted.insertionSort_eq
      rw [hkeys]
      exact hagree
    have hdhi : decryptHmacInput P (encryptLoop2 P hI (sortRecipients P recipients) entries0).1
        = hI := by
      unfold decryptHmacInput keyedFlat
      rw [hsortKeys, flatMap_entryBytes _ _ hkn,
        forall₂_flatMap_congr (fun _ _ h => by rw [h.2.1, h.2.2]) hpres]
      exact hflat.symm
    have hdth : decryptTagHmacs P (encryptLoop2 P hI (sortRecipients P recipients) entries0).1
        = (encryptLoop2 P hI (sortRecipients P recipients) entries0).2 := by
      unfold decryptTagHmacs keyedFlat
      rw [hsortKeys, flatMap_entryBytes _ _ hkn]
      exact htagflat.symm
    refine ⟨hS_nodup, hkeys, hsortKeys, ?_, ?_, ?_⟩
    · unfold encryptHmacInput
      rw [hloop1, Option.map_some', hdhi]
    · have hcomp := forall₂_compose hfa1 hpres
      have hboth := forall₂_entry_and hcomp hhmac
      refine List.Forall₂.imp ?_ hboth
      intro r p h
      obtain ⟨⟨q, hA, hB⟩, hC⟩ := h
      refine ⟨hB.1.trans hA.1, ?_, ?_⟩
      · rw [hB.2.1, hA.2.2, hB.2.2]
      · rw [hC, hdhi]
    · show createMessageTag P ((P.utf8encode pt ++ pad)
          ++ (encryptLoop2 P hI (sortRecipients P recipients) entries0).2) = _
      rw [hdth]

/-- A run in which every gate passes returns the decoded plaintext and
the missing-recipients report, and registers the entry IV. -/
theorem decrypt_ok_intro (P : Prims) (env : Envelope) (sender : Recipient) (myName : String)
    (buddies used : List String) (senderKey : SecretKey) (e : Entry) (s : String)
    (hSk : sender.mpSecretKey = some senderKey)
    (hE : getEntry env.text myName = some e)
    (hAuth : e.hmac = HMAC P (decryptHmacInput P env.text) senderKey.hmac)
    (hIv : e.iv ∉ used)
    (hLen : ¬ (decryptAES P e.message senderKey.message e.iv).length < 64)
    (hTag : createMessageTag P (decryptAES P e.message senderKey.message e.iv
        ++ decryptTagHmacs P env.text) = env.tag)
    (hDec : P.utf8decode ((decryptAES P e.message senderKey.message e.iv).take
        ((decryptAES P e.message senderKey.message e.iv).length - 64)) = some s) :
    decrypt P env sender myName buddies used
      = (Except.ok (DecryptValue.result s (buddies.filter fun b =>
          b != sender.nickname && (getEntry env.text b).isNone)), used ++ [e.iv]) := by
  unfold decrypt
  simp only [hE, hSk, hAuth, hIv, hLen, hTag, hDec, ne_eq, not_true_eq_false, if_false,
    not_false_eq_true, if_true]

/-! ### C1 (amended): round trip against a fresh registry -/

/-- C1 (amended): decrypting the envelope produced by `encrypt` as any
recipient of the set recovers the original plaintext, provided the
decrypting registry does not already hold the envelope IVs (as in a
receiving process) and the collation order `encrypt` sorts with agrees
with the code-unit order `decrypt` re-sorts the keys with on these
labels (as for all-lowercase ASCII labels); with the single shared
registry the replay gate fires instead (`mp_C1_cex`), and when the two
orders disagree on the labels authentication fails (`mp_C3_cex`). -/
theorem mp_C1 (P : Prims) (pt : String) (recipients : List Recipient) (pad : Bytes)
    (ivs : List Bytes) (used usedDec : List String) (env : Envelope) (used₁ : List String)
    (buddies : List String) (r : Recipient) (kr : SecretKey) (sender : Recipient)
    (hB64 : ∀ bs, P.b64decode (P.b64encode bs) = bs)
    (hCtr : ∀ m k c, P.aesCtrDecrypt (P.aesCtrEncrypt m k c) k c = m)
    (hUtf : P.utf8decode (P.utf8encode pt) = some pt)
    (hPad : pad.length = 64)
    (hnodup : (recipients.map Recipient.nickname).Nodup)
    (hagree : List.Sorted sLe ((sortRecipients P recipients).map Recipient.nickname))
    (hEnc : encrypt P pt recipients pad ivs used = some (env, used₁))
    (hr : r ∈ recipients) (hkr : r.mpSecretKey = some kr)
    (hSender : sender.mpSecretKey = some kr)
    (hfresh : ∀ p ∈ env.text, p.2.iv ∉ usedDec) :
    ∃ missing used₂, decrypt P env sender r.nickname buddies usedDec
      = (Except.ok (DecryptValue.result pt missing), used₂) := by
  obtain ⟨hSnodup, hkeys, hsorted, hhmacinp, hfa, htag⟩ :=
    encrypt_spec P pt recipients pad ivs used env used₁ hnodup hagree hEnc
  have hrS : r ∈ sortRecipients P recipients := by
    have hmemf : r ∈ recipients.filter fun x => x.mpSecretKey.isSome :=
      List.mem_filter.mpr ⟨hr, by rw [hkr]; rfl⟩
    exact (List.perm_insertionSort (nickLe P) _).mem_iff.mpr hmemf
  obtain ⟨p, hpmem, hpg, hQ⟩ := forall₂_getEntry (fun _ _ h => h.1) hfa hSnodup r hrS
  have hgd : r.mpSecretKey.getD default = kr := by rw [hkr]; rfl
  have hdec : decryptAES P p.2.message kr.message p.2.iv = P.utf8encode pt ++ pad := by
    rw [hQ.2.1, hgd]
    unfold decryptAES encryptAES
    rw [hB64, hCtr]
  have hlen : (decryptAES P p.2.message kr.message p.2.iv).length
      = (P.utf8encode pt).length + 64 := by
    rw [hdec, List.length_append, hPad]
  have hnl : ¬ (decryptAES P p.2.message kr.message p.2.iv).length < 64 := by
    rw [hlen]
    omega
  have htake : (decryptAES P p.2.message kr.message p.2.iv).take
      ((decryptAES P p.2.message kr.message p.2.iv).length - 64) = P.utf8encode pt := by
    rw [hlen, hdec]
    have harith : (P.utf8encode pt).length + 64 - 64 = (P.utf8encode pt).length := by omega
    rw [harith]
    exact List.take_left _ _
  refine ⟨_, _, decrypt_ok_intro P env sender r.nickname buddies usedDec kr p.2 pt hSender
    hpg ?_ (hfresh p hpmem) hnl ?_ ?_⟩
  · rw [hQ.2.2, hgd]
  · rw [hdec]
    exact htag.symm
  · rw [htake]
    exact hUtf

/-- Evaluation of `mp_C1` on the concrete envelope, decrypted against a
fresh registry: the original plaintext is recovered. -/
theorem mp_C1_witness :
    ∃ missing used₂, decrypt tPrims envC1 senderA "alice" ["alice", "sender"] []
      = (Except.ok (DecryptValue.result "hi" missing), used₂) :=
  mp_C1 tPrims "hi" [aliceR] padC ivsC [] [] envC1 usedC1 ["alice", "sender"]
    aliceR kA senderA tb64_roundtrip tctr_inv (by decide) (by decide) (by decide)
    (by decide) (by decide) (by decide) (by decide) (by decide) (by decide)

/-! ### C3: ordering of the MAC input -/

/-- The toy collation is total. -/
theorem tlocale_total : ∀ a b : String, tlocaleLe a b = true ∨ tlocaleLe b a = true := by
  intro a b
  unfold tlocaleLe
  by_cases h : tfold a = tfold b
  · rw [if_pos h, if_pos h.symm]
    exact charsLe_total a.data b.data
  · rw [if_neg h, if_neg fun hc => h hc.symm]
    exact charsLe_total (tfold a) (tfold b)

/-- The toy collation is transitive. -/
theorem tlocale_trans : ∀ a b c : String,
    tlocaleLe a b = true → tlocaleLe b c = true → tlocaleLe a c = true := by
  intro a b c h1 h2
  unfold tlocaleLe at h1 h2 ⊢
  by_cases hab : tfold a = tfold b
  · rw [if_pos hab] at h1
    by_cases hbc : tfold b = tfold c
    · rw [if_pos hbc] at h2
      rw [if_pos (hab.trans hbc)]
      exact charsLe_trans a.data b.data c.data h1 h2
    · rw [if_neg hbc] at h2
      rw [if_neg fun hc => hbc (hab.symm.trans hc), hab]
      exact h2
  · rw [if_neg hab] at h1
    by_cases hbc : tfold b = tfold c
    · rw [if_pos hbc] at h2
      rw [if_neg fun hc => hab (hc.trans hbc.symm), ← hbc]
      exact h1
    · rw [if_neg hbc] at h2
      by_cases hac : tfold a = tfold c
      · have h2a : charsLe (tfold b) (tfold a) = true := by
          rw [hac]
          exact h2
        exact absurd (charsLe_antisymm (tfold a) (tfold b) h1 h2a) hab
      · rw [if_neg hac]
        exact charsLe_trans (tfold a) (tfold b) (tfold c) h1 h2

/-- The toy collation is antisymmetric. -/
theorem tlocale_antisymm : ∀ a b : String,
    tlocaleLe a b = true → tlocaleLe b a = true → a = b := by
  intro a b h1 h2
  unfold tlocaleLe at h1 h2
  by_cases h : tfold a = tfold b
  · rw [if_pos h] at h1
    rw [if_pos h.symm] at h2
    exact String.ext (charsLe_antisymm a.data b.data h1 h2)
  · rw [if_neg h] at h1
    rw [if_neg fun hc => h hc.symm] at h2
    exact absurd (charsLe_antisymm (tfold a) (tfold b) h1 h2) h

/-- C3 counterexample: with the mixed-case labels alice and Bob the two
orders of the source disagree — `encrypt` sorts by collation and lays
the entries out as alice, Bob, while `decrypt` re-sorts the keys by
code units as Bob, alice — so decrypt does not rebuild the MAC input
in the order the sender used and decryption of the honestly produced
envelope fails with `authenticationFailure` even from a fresh
registry. -/
theorem mp_C3_cex :
    encCB = some (envCB, usedCB) ∧
    envCB.text.map Prod.fst = ["alice", "Bob"] ∧
    decryptSortedKeys envCB.text = ["Bob", "alice"] ∧
    (decrypt iPrims envCB senderA "alice" ["alice", "Bob", "sender"] []).1
      = Except.error DecryptError.authenticationFailure := by decide

/-- C3 (amended): the envelope, and with it the per-recipient MAC
input, is independent of the order recipients are supplied, the
filtered list being sorted by identity label under the host collation
(assumed a total, transitive order that is antisymmetric on labels);
decrypt recomputes the MAC input the sender used exactly when the
collation-sorted labels also stand in the code-unit order of the key
sort — for mixed-case labels such as alice and Bob the two orders
differ and authentication fails (`mp_C3_cex`); in particular, for
recipients named bob and alice (all lowercase) both the collation sort
of `encrypt` and the code-unit key sort of `decrypt` produce the order
alice, bob. -/
theorem mp_C3 (P : Prims) (pt : String) (rs₁ rs₂ : List Recipient) (pad : Bytes)
    (ivs : List Bytes) (used : List String) (env : Envelope) (used₁ : List String)
    (htot : ∀ a b : String, P.localeLe a b = true ∨ P.localeLe b a = true)
    (htrans : ∀ a b c : String, P.localeLe a b = true → P.localeLe b c = true →
      P.localeLe a c = true)
    (hanti : ∀ a b : String, P.localeLe a b = true → P.localeLe b a = true → a = b)
    (hperm : rs₁.Perm rs₂) (hnodup : (rs₁.map Recipient.nickname).Nodup)
    (hEnc : encrypt P pt rs₁ pad ivs used = some (env, used₁)) :
    encrypt P pt rs₂ pad ivs used = some (env, used₁) ∧
    (List.Sorted sLe ((sortRecipients P rs₁).map Recipient.nickname) →
      encryptHmacInput P pt rs₁ pad ivs used = some (decryptHmacInput P env.text)) ∧
    (P.localeLe "alice" "bob" = true → P.localeLe "bob" "alice" = false →
      ∀ k₁ k₂ : SecretKey,
        (sortRecipients P [⟨"bob", some k₁⟩, ⟨"alice", some k₂⟩]).map Recipient.nickname
          = ["alice", "bob"] ∧
        (sortRecipients P [⟨"alice", some k₂⟩, ⟨"bob", some k₁⟩]).map Recipient.nickname
          = ["alice", "bob"]) ∧
    (∀ e₁ e₂ : Entry, decryptSortedKeys [("bob", e₁), ("alice", e₂)] = ["alice", "bob"]) := by
  haveI : IsTrans Recipient (nickLe P) := ⟨fun _ _ _ hab hbc => htrans _ _ _ hab hbc⟩
  haveI : IsTotal Recipient (nickLe P) := ⟨fun a b => htot a.nickname b.nickname⟩
  have hpermS : (sortRecipients P rs₁).Perm (sortRecipients P rs₂) :=
    ((List.perm_insertionSort (nickLe P) _).trans (hperm.filter _)).trans
      (List.perm_insertionSort (nickLe P) _).symm
  have hnodupS : ((sortRecipients P rs₁).map Recipient.nickname).Nodup := by
    have hsub : ((rs₁.filter fun r => r.mpSecretKey.isSome).map
        Recipient.nickname).Sublist (rs₁.map Recipient.nickname) :=
      List.Sublist.map Recipient.nickname (List.filter_sublist rs₁)
    exact ((List.perm_insertionSort (nickLe P) _).map Recipient.nickname).nodup_iff.mpr
      (List.Nodup.sublist hsub hnodup)
  have hsorteq : sortRecipients P rs₁ = sortRecipients P rs₂ :=
    sorted_perm_nodup_eq P hanti hpermS (List.sorted_insertionSort (nickLe P) _)
      (List.sorted_insertionSort (nickLe P) _) hnodupS
  refine ⟨?_, ?_, ?_, ?_⟩
  · have heq : encrypt P pt rs₂ pad ivs used = encrypt P pt rs₁ pad ivs used := by
      unfold encrypt
      rw [hsorteq]
    rw [heq]
    exact hEnc
  · intro hagree
    exact (encrypt_spec P pt rs₁ pad ivs used env used₁ hnodup hagree hEnc).2.2.2.1
  · intro hl1 hl2 k₁ k₂
    constructor
    · show (List.insertionSort (nickLe P) (List.filter _
        [⟨"bob", some k₁⟩, ⟨"alice", some k₂⟩])).map Recipient.nickname = _
      simp [List.insertionSort, List.orderedInsert, nickLe, hl2]
    · show (List.insertionSort (nickLe P) (List.filter _
        [⟨"alice", some k₂⟩, ⟨"bob", some k₁⟩])).map Recipient.nickname = _
      simp [List.insertionSort, List.orderedInsert, nickLe, hl1]
  · intro e₁ e₂
    rfl

/-- Evaluation of `mp_C3` on the concrete all-lowercase two-recipient
set supplied in both orders: the envelope is identical, decrypt
rebuilds the MAC input of the sender, and both sort orders place alice
before bob. -/
theorem mp_C3_witness :
    encrypt tPrims "hi" [aliceR, bobR] padC ivsC [] = some (envC3, usedC3) ∧
    encryptHmacInput tPrims "hi" [bobR, aliceR] padC ivsC []
      = some (decryptHmacInput tPrims envC3.text) ∧
    (sortRecipients tPrims [⟨"bob", some kB⟩, ⟨"alice", some kA⟩]).map Recipient.nickname
      = ["alice", "bob"] := by
  have h := mp_C3 tPrims "hi" [bobR, aliceR] [aliceR, bobR] padC ivsC [] envC3 usedC3
    tlocale_total tlocale_trans tlocale_antisymm (by decide) (by decide) (by decide)
  exact ⟨h.1, h.2.1 (by decide), (h.2.2.1 (by decide) (by decide) kB kA).1⟩

/-! ### C2 helpers: injectivity of the tag chain and envelope surgery -/

/-- Iterating an injective hash is injective. -/
theorem shaIter_inj (P : Prims) (hSha : ∀ {a b : Bytes}, P.sha512 a = P.sha512 b → a = b) :
    ∀ (n : Nat) {a b : Bytes},
      (List.range n).foldl (fun m _ => P.sha512 m) a
        = (List.range n).foldl (fun m _ => P.sha512 m) b → a = b
  | 0, _, _, h => h
  | n + 1, a, b, h => by
      rw [List.range_succ, List.foldl_append, List.foldl_append] at h
      simp only [List.foldl_cons, List.foldl_nil] at h
      exact shaIter_inj P hSha n (hSha h)

/-- The aggregate tag is injective when the hash and Base64 are. -/
theorem createMessageTag_inj (P : Prims) (hB64 : ∀ bs, P.b64decode (P.b64encode bs) = bs)
    (hSha : ∀ {a b : Bytes}, P.sha512 a = P.sha512 b → a = b) {a b : Bytes}
    (h : createMessageTag P a = createMessageTag P b) : a = b := by
  unfold createMessageTag at h
  exact shaIter_inj P hSha 8 (b64encode_inj P hB64 h)

/-- Equal concatenations with a common front and back have equal
middles. -/
theorem append_mid_cancel {A B s₁ s₂ : Bytes} (h : A ++ (s₁ ++ B) = A ++ (s₂ ++ B)) :
    s₁ = s₂ :=
  List.append_cancel_right (List.append_cancel_left h)

/-- Updating one entry splits every keyed accumulation into a common
front and back around the contribution of the changed entry. -/
theorem keyedFlat_setEntry (F : Entry → Bytes) (text : List (String × Entry))
    (xname : String) (ex e' : Entry)
    (hnd : (text.map Prod.fst).Nodup) (hgx : getEntry text xname = some ex) :
    ∃ A B, keyedFlat F (setEntry text xname e') = A ++ (F e' ++ B) ∧
      keyedFlat F text = A ++ (F ex ++ B) := by
  have hkeq : decryptSortedKeys (setEntry text xname e') = decryptSortedKeys text := by
    unfold decryptSortedKeys
    rw [setEntry_map_fst]
  have hmemK : xname ∈ decryptSortedKeys text :=
    (List.perm_insertionSort sLe _).mem_iff.mpr (getEntry_some_mem_keys hgx)
  have hndK : (decryptSortedKeys text).Nodup :=
    (List.perm_insertionSort sLe _).nodup_iff.mpr hnd
  obtain ⟨K₁, K₂, hK⟩ := List.append_of_mem hmemK
  have hnd' : (K₁ ++ xname :: K₂).Nodup := hK ▸ hndK
  obtain ⟨hk1nd, hk2nd, hdisj⟩ := List.nodup_append.mp hnd'
  have hx1 : xname ∉ K₁ := fun hc => hdisj hc (List.mem_cons_self _ _)
  have hx2 : xname ∉ K₂ := (List.nodup_cons.mp hk2nd).1
  have h1 : ∀ k ∈ K₁, entryBytes F (setEntry text xname e') k = entryBytes F text k := by
    intro k hk
    have hne : k ≠ xname := by
      intro hc
      subst hc
      exact hx1 hk
    unfold entryBytes
    rw [getEntry_setEntry_ne _ _ _ _ hne]
  have h2 : ∀ k ∈ K₂, entryBytes F (setEntry text xname e') k = entryBytes F text k := by
    intro k hk
    have hne : k ≠ xname := by
      intro hc
      subst hc
      exact hx2 hk
    unfold entryBytes
    rw [getEntry_setEntry_ne _ _ _ _ hne]
  refine ⟨K₁.flatMap (entryBytes F text), K₂.flatMap (entryBytes F text), ?_, ?_⟩
  · unfold keyedFlat
    rw [hkeq, hK, List.flatMap_append, List.flatMap_cons, flatMap_congr_mem h1,
      flatMap_congr_mem h2]
    have hmid : entryBytes F (setEntry text xname e') xname = F e' := by
      unfold entryBytes
      rw [getEntry_setEntry_self e' hgx]
    rw [hmid]
  · unfold keyedFlat
    rw [hK, List.flatMap_append, List.flatMap_cons]
    have hmid : entryBytes F text xname = F ex := by
      unfold entryBytes
      rw [hgx]
    rw [hmid]

/-- A run whose HMAC comparison fails stops with
`authenticationFailure` and an unchanged registry. -/
theorem decrypt_auth_fail_intro (P : Prims) (env : Envelope) (sender : Recipient)
    (myName : String) (buddies used : List String) (senderKey : SecretKey) (e : Entry)
    (hSk : sender.mpSecretKey = some senderKey)
    (hE : getEntry env.text myName = some e)
    (hAuth : e.hmac ≠ HMAC P (decryptHmacInput P env.text) senderKey.hmac) :
    decrypt P env sender myName buddies used
      = (Except.error DecryptError.authenticationFailure, used) := by
  unfold decrypt
  simp only [hE, hSk]
  rw [if_pos hAuth]

/-- A run that reaches the tag gate with a mismatched tag stops with
`tagFailure`, the IV already registered. -/
theorem decrypt_tag_fail_intro (P : Prims) (env : Envelope) (sender : Recipient)
    (myName : String) (buddies used : List String) (senderKey : SecretKey) (e : Entry)
    (hSk : sender.mpSecretKey = some senderKey)
    (hE : getEntry env.text myName = some e)
    (hAuth : e.hmac = HMAC P (decryptHmacInput P env.text) senderKey.hmac)
    (hIv : e.iv ∉ used)
    (hLen : ¬ (decryptAES P e.message senderKey.message e.iv).length < 64)
    (hTag : createMessageTag P (decryptAES P e.message senderKey.message e.iv
        ++ decryptTagHmacs P env.text) ≠ env.tag) :
    decrypt P env sender myName buddies used
      = (Except.error DecryptError.tagFailure, used ++ [e.iv]) := by
  unfold decrypt
  simp only [hE, hSk, hAuth, hIv, hLen, hTag, ne_eq, not_true_eq_false, if_false,
    not_false_eq_true, if_true]

/-- Decrypting a surgically modified envelope fails authentication for
any caller whose stored HMAC matches the original HMAC input, whenever
the modification changed the recomputed HMAC input. -/
theorem decrypt_setEntry_auth_fail (P : Prims) (env : Envelope) (sender : Recipient)
    (yname xname : String) (buddies usedDec : List String) (ky : SecretKey) (e' eyy : Entry)
    (hB64 : ∀ bs, P.b64decode (P.b64encode bs) = bs)
    (hHmacInj : ∀ (k : Bytes) {m₁ m₂ : Bytes}, P.hmacSHA512 m₁ k = P.hmacSHA512 m₂ k → m₁ = m₂)
    (hSender : sender.mpSecretKey = some ky)
    (hE : getEntry (setEntry env.text xname e') yname = some eyy)
    (hstored : eyy.hmac = HMAC P (decryptHmacInput P env.text) ky.hmac)
    (hDne : decryptHmacInput P (setEntry env.text xname e') ≠ decryptHmacInput P env.text) :
    decrypt P ⟨setEntry env.text xname e', env.tag⟩ sender yname buddies usedDec
      = (Except.error DecryptError.authenticationFailure, usedDec) := by
  apply decrypt_auth_fail_intro P ⟨setEntry env.text xname e', env.tag⟩ sender yname buddies
    usedDec ky eyy hSender hE
  rw [hstored]
  intro hc
  exact hDne (hHmacInj _ (b64encode_inj P hB64 hc)).symm

/-! ### C2: tamper sensitivity for every recipient -/

/-- C2: for an envelope produced by `encrypt`, replacing the underlying
bytes of any one entry field (ciphertext, IV or per-recipient HMAC) by
different bytes of the same length makes decryption fail for every
recipient of the envelope — with `authenticationFailure` when the HMAC
input changed or the caller holds the modified HMAC, and with
`tagFailure` for the other recipients when only a stored HMAC changed —
assuming the primitive hash and HMAC are injective, the receiving
registry is fresh, and the collation-sorted labels are also in
code-unit order (the label sets on which untampered decryption can
work at all, see `mp_C3_cex`). -/
theorem mp_C2 (P : Prims) (pt : String) (recipients : List Recipient) (pad : Bytes)
    (ivs : List Bytes) (used usedDec : List String) (env : Envelope) (used₁ : List String)
    (buddies : List String) (x y : Recipient) (kx ky : SecretKey) (sender : Recipient)
    (f : TamperField) (bs' : Bytes) (ex : Entry)
    (hB64 : ∀ bs, P.b64decode (P.b64encode bs) = bs)
    (hCtr : ∀ m k c, P.aesCtrDecrypt (P.aesCtrEncrypt m k c) k c = m)
    (hShaInj : ∀ {a b : Bytes}, P.sha512 a = P.sha512 b → a = b)
    (hHmacInj : ∀ (k : Bytes) {m₁ m₂ : Bytes}, P.hmacSHA512 m₁ k = P.hmacSHA512 m₂ k → m₁ = m₂)
    (hPad : pad.length = 64)
    (hnodup : (recipients.map Recipient.nickname).Nodup)
    (hagree : List.Sorted sLe ((sortRecipients P recipients).map Recipient.nickname))
    (hEnc : encrypt P pt recipients pad ivs used = some (env, used₁))
    (hx : x ∈ recipients) (hkx : x.mpSecretKey = some kx)
    (hy : y ∈ recipients) (hky : y.mpSecretKey = some ky)
    (hSender : sender.mpSecretKey = some ky)
    (hgx : getEntry env.text x.nickname = some ex)
    (hlenT : bs'.length = (fieldBytes P f ex).length)
    (hneT : bs' ≠ fieldBytes P f ex)
    (hfresh : ∀ p ∈ env.text, p.2.iv ∉ usedDec) :
    (decrypt P ⟨setEntry env.text x.nickname (tamperEntry P f bs' ex), env.tag⟩ sender
        y.nickname buddies usedDec).1 = Except.error DecryptError.authenticationFailure ∨
    (decrypt P ⟨setEntry env.text x.nickname (tamperEntry P f bs' ex), env.tag⟩ sender
        y.nickname buddies usedDec).1 = Except.error DecryptError.tagFailure := by
  obtain ⟨hSnodup, hkeys, hsorted, hhmacinp, hfa, htag⟩ :=
    encrypt_spec P pt recipients pad ivs used env used₁ hnodup hagree hEnc
  have hndK : (env.text.map Prod.fst).Nodup := by
    rw [hkeys]
    exact hSnodup
  have hxS : x ∈ sortRecipients P recipients :=
    (List.perm_insertionSort (nickLe P) _).mem_iff.mpr
      (List.mem_filter.mpr ⟨hx, by rw [hkx]; rfl⟩)
  have hyS : y ∈ sortRecipients P recipients :=
    (List.perm_insertionSort (nickLe P) _).mem_iff.mpr
      (List.mem_filter.mpr ⟨hy, by rw [hky]; rfl⟩)
  obtain ⟨px, hpxmem, hpxg, hQx⟩ := forall₂_getEntry (fun _ _ h => h.1) hfa hSnodup x hxS
  obtain ⟨py, hpymem, hpyg, hQy⟩ := forall₂_getEntry (fun _ _ h => h.1) hfa hSnodup y hyS
  obtain rfl : ex = px.2 := Option.some.inj (hgx.symm.trans hpxg)
  have hgdx : x.mpSecretKey.getD default = kx := by rw [hkx]; rfl
  have hgdy : y.mpSecretKey.getD default = ky := by rw [hky]; rfl
  have hxhmac : px.2.hmac = HMAC P (decryptHmacInput P env.text) kx.hmac := by
    rw [hQx.2.2, hgdx]
  have hyhmac : py.2.hmac = HMAC P (decryptHmacInput P env.text) ky.hmac := by
    rw [hQy.2.2, hgdy]
  cases f with
  | message =>
      left
      obtain ⟨A, B, hT', hT⟩ := keyedFlat_setEntry
        (fun e => P.b64decode e.message ++ P.b64decode e.iv) env.text x.nickname px.2
        (tamperEntry P TamperField.message bs' px.2) hndK hgx
      have hDne : decryptHmacInput P (setEntry env.text x.nickname
          (tamperEntry P TamperField.message bs' px.2)) ≠ decryptHmacInput P env.text := by
        intro hc
        have hc' : keyedFlat (fun e => P.b64decode e.message ++ P.b64decode e.iv)
            (setEntry env.text x.nickname (tamperEntry P TamperField.message bs' px.2))
            = keyedFlat (fun e => P.b64decode e.message ++ P.b64decode e.iv) env.text := hc
        rw [hT', hT] at hc'
        have h1 := append_mid_cancel hc'
        dsimp only [tamperEntry] at h1
        rw [hB64] at h1
        exact hneT (List.append_cancel_right h1)
      by_cases hyx : y.nickname = x.nickname
      · have hxy : y = x := List.inj_on_of_nodup_map hnodup hy hx hyx
        have hkk : ky = kx := by
          rw [hxy, hkx] at hky
          exact (Option.some.inj hky).symm
        have hE : getEntry (setEntry env.text x.nickname
            (tamperEntry P TamperField.message bs' px.2)) y.nickname
            = some (tamperEntry P TamperField.message bs' px.2) := by
          rw [hyx]
          exact getEntry_setEntry_self _ hgx
        have hstored : (tamperEntry P TamperField.message bs' px.2).hmac
            = HMAC P (decryptHmacInput P env.text) ky.hmac := by
          show px.2.hmac = _
          rw [hxhmac, hkk]
        rw [decrypt_setEntry_auth_fail P env sender y.nickname x.nickname buddies usedDec ky
          (tamperEntry P TamperField.message bs' px.2)
          (tamperEntry P TamperField.message bs' px.2) hB64 hHmacInj hSender hE hstored hDne]
      · have hE : getEntry (setEntry env.text x.nickname
            (tamperEntry P TamperField.message bs' px.2)) y.nickname = some py.2 := by
          rw [getEntry_setEntry_ne _ _ _ _ hyx]
          exact hpyg
        rw [decrypt_setEntry_auth_fail P env sender y.nickname x.nickname buddies usedDec ky
          (tamperEntry P TamperField.message bs' px.2) py.2 hB64 hHmacInj hSender hE
          hyhmac hDne]
  | iv =>
      left
      obtain ⟨A, B, hT', hT⟩ := keyedFlat_setEntry
        (fun e => P.b64decode e.message ++ P.b64decode e.iv) env.text x.nickname px.2
        (tamperEntry P TamperField.iv bs' px.2) hndK hgx
      have hDne : decryptHmacInput P (setEntry env.text x.nickname
          (tamperEntry P TamperField.iv bs' px.2)) ≠ decryptHmacInput P env.text := by
        intro hc
        have hc' : keyedFlat (fun e => P.b64decode e.message ++ P.b64decode e.iv)
            (setEntry env.text x.nickname (tamperEntry P TamperField.iv bs' px.2))
            = keyedFlat (fun e => P.b64decode e.message ++ P.b64decode e.iv) env.text := hc
        rw [hT', hT] at hc'
        have h1 := append_mid_cancel hc'
        dsimp only [tamperEntry] at h1
        rw [hB64] at h1
        exact hneT (List.append_cancel_left h1)
      by_cases hyx : y.nickname = x.nickname
      · have hxy : y = x := List.inj_on_of_nodup_map hnodup hy hx hyx
        have hkk : ky = kx := by
          rw [hxy, hkx] at hky
          exact (Option.some.inj hky).symm
        have hE : getEntry (setEntry env.text x.nickname
            (tamperEntry P TamperField.iv bs' px.2)) y.nickname
            = some (tamperEntry P TamperField.iv bs' px.2) := by
          rw [hyx]
          exact getEntry_setEntry_self _ hgx
        have hstored : (tamperEntry P TamperField.iv bs' px.2).hmac
            = HMAC P (decryptHmacInput P env.text) ky.hmac := by
          show px.2.hmac = _
          rw [hxhmac, hkk]
        rw [decrypt_setEntry_auth_fail P env sender y.nickname x.nickname buddies usedDec ky
          (tamperEntry P TamperField.iv bs' px.2)
          (tamperEntry P TamperField.iv bs' px.2) hB64 hHmacInj hSender hE hstored hDne]
      · have hE : getEntry (setEntry env.text x.nickname
            (tamperEntry P TamperField.iv bs' px.2)) y.nickname = some py.2 := by
          rw [getEntry_setEntry_ne _ _ _ _ hyx]
          exact hpyg
        rw [decrypt_setEntry_auth_fail P env sender y.nickname x.nickname buddies usedDec ky
          (tamperEntry P TamperField.iv bs' px.2) py.2 hB64 hHmacInj hSender hE hyhmac hDne]
  | hmac =>
      have hDeq : decryptHmacInput P (setEntry env.text x.nickname
          (tamperEntry P TamperField.hmac bs' px.2)) = decryptHmacInput P env.text := by
        obtain ⟨A, B, hT', hT⟩ := keyedFlat_setEntry
          (fun e => P.b64decode e.message ++ P.b64decode e.iv) env.text x.nickname px.2
          (tamperEntry P TamperField.hmac bs' px.2) hndK hgx
        show keyedFlat (fun e => P.b64decode e.message ++ P.b64decode e.iv) _
            = keyedFlat (fun e => P.b64decode e.message ++ P.b64decode e.iv) env.text
        rw [hT', hT]
        rfl
      by_cases hyx : y.nickname = x.nickname
      · left
        have hxy : y = x := List.inj_on_of_nodup_map hnodup hy hx hyx
        have hkk : ky = kx := by
          rw [hxy, hkx] at hky
          exact (Option.some.inj hky).symm
        have hE : getEntry (setEntry env.text x.nickname
            (tamperEntry P TamperField.hmac bs' px.2)) y.nickname
            = some (tamperEntry P TamperField.hmac bs' px.2) := by
          rw [hyx]
          exact getEntry_setEntry_self _ hgx
        have hAuth : (tamperEntry P TamperField.hmac bs' px.2).hmac
            ≠ HMAC P (decryptHmacInput P (setEntry env.text x.nickname
                (tamperEntry P TamperField.hmac bs' px.2))) ky.hmac := by
          rw [hDeq, hkk]
          show P.b64encode bs' ≠ HMAC P (decryptHmacInput P env.text) kx.hmac
          intro hc
          apply hneT
          show bs' = P.b64decode px.2.hmac
          rw [hxhmac]
          show bs' = P.b64decode (P.b64encode (P.hmacSHA512 (decryptHmacInput P env.text)
            kx.hmac))
          rw [hB64]
          exact b64encode_inj P hB64 hc
        rw [decrypt_auth_fail_intro P ⟨setEntry env.text x.nickname
          (tamperEntry P TamperField.hmac bs' px.2), env.tag⟩ sender y.nickname buddies
          usedDec ky (tamperEntry P TamperField.hmac bs' px.2) hSender hE hAuth]
      · right
        have hE : getEntry (setEntry env.text x.nickname
            (tamperEntry P TamperField.hmac bs' px.2)) y.nickname = some py.2 := by
          rw [getEntry_setEntry_ne _ _ _ _ hyx]
          exact hpyg
        have hAuth : py.2.hmac = HMAC P (decryptHmacInput P (setEntry env.text x.nickname
            (tamperEntry P TamperField.hmac bs' px.2))) ky.hmac := by
          rw [hDeq]
          exact hyhmac
        have hdecr : decryptAES P py.2.message ky.message py.2.iv
            = P.utf8encode pt ++ pad := by
          rw [hQy.2.1, hgdy]
          unfold decryptAES encryptAES
          rw [hB64, hCtr]
        have hnl : ¬ (decryptAES P py.2.message ky.message py.2.iv).length < 64 := by
          rw [hdecr, List.length_append, hPad]
          omega
        have hIv : py.2.iv ∉ usedDec := hfresh py hpymem
        have hTagne : createMessageTag P (decryptAES P py.2.message ky.message py.2.iv
            ++ decryptTagHmacs P (setEntry env.text x.nickname
              (tamperEntry P TamperField.hmac bs' px.2))) ≠ env.tag := by
          rw [hdecr, htag]
          intro hc
          have h1 := createMessageTag_inj P hB64 hShaInj hc
          have h2 := List.append_cancel_left h1
          obtain ⟨A, B, hT', hT⟩ := keyedFlat_setEntry (fun e => P.b64decode e.hmac)
            env.text x.nickname px.2 (tamperEntry P TamperField.hmac bs' px.2) hndK hgx
          have h3 : keyedFlat (fun e => P.b64decode e.hmac) (setEntry env.text x.nickname
              (tamperEntry P TamperField.hmac bs' px.2))
              = keyedFlat (fun e => P.b64decode e.hmac) env.text := h2
          rw [hT', hT] at h3
          have h4 := append_mid_cancel h3
          dsimp only [tamperEntry] at h4
          rw [hB64] at h4
          exact hneT h4
        rw [decrypt_tag_fail_intro P ⟨setEntry env.text x.nickname
          (tamperEntry P TamperField.hmac bs' px.2), env.tag⟩ sender y.nickname buddies
          usedDec ky py.2 hSender hE hAuth hIv hnl hTagne]

/-- Evaluation of `mp_C2` on the concrete two-recipient envelope with
the per-recipient HMAC of bob modified in one byte: decryption as alice is
rejected (concretely with `tagFailure`). -/
theorem mp_C2_witness :
    (decrypt iPrims envC2t senderA "alice" ["alice", "bob", "sender"] []).1
      = Except.error DecryptError.authenticationFailure ∨
    (decrypt iPrims envC2t senderA "alice" ["alice", "bob", "sender"] []).1
      = Except.error DecryptError.tagFailure :=
  mp_C2 iPrims "hi" [bobR, aliceR] padC ivsC [] [] envC2 usedC2 ["alice", "bob", "sender"]
    bobR aliceR kB kA senderA TamperField.hmac tampC2 exC2 tb64_roundtrip ictr_inv
    isha_inj ihmac_inj (by decide) (by decide) (by decide) (by decide) (by decide)
    (by decide) (by decide) (by decide) (by decide) (by decide) (by decide) (by decide)
    (by decide)
